import Mathlib

/-!
# Verification of the supra-pok3r secret-shared evaluator

Shallow embedding of the MPC evaluator in `src/evaluator.rs` (together with
the helpers in `src/utils.rs` and constants in `src/common.rs`), and proofs
of the specification's claims about it.

The scalar field `F` of the BLS12 curve is modelled as an arbitrary field
(its concrete 255-bit prime plays no role in any claim); concrete witnesses
instantiate it with `ZMod p` for small primes `p`.

Shares held by the `n` parties are modelled as functions `ℕ → F` from the
1-based party id to the party's local share; "opening" a wire is summing
the shares of parties `1..n`, which embeds the hypothesis that every
reconstruction returns the true sum of all parties' shares
(`reconstruct_scalar` in the source sums the local share with all received
shares).
-/

namespace Pok3r

/-- `PERM_SIZE` from `src/common.rs`. -/
def PERM_SIZE : ℕ := 64

/-- `LOG_PERM_SIZE` from `src/common.rs`. -/
def LOG_PERM_SIZE : ℕ := 6

/-- `NUM_BEAVER_TRIPLES` from `src/common.rs`. -/
def NUM_BEAVER_TRIPLES : ℕ := 3466

/-- `NUM_RAND_SHARINGS` from `src/common.rs`. -/
def NUM_RAND_SHARINGS : ℕ := 987

instance fact_prime_101 : Fact (Nat.Prime 101) := ⟨by norm_num⟩

instance fact_prime_257 : Fact (Nat.Prime 257) := ⟨by norm_num⟩

section SharesModelDefs

variable {F : Type} [Field F]

/-- Opening a wire: the sum of all `n` parties' shares (party ids `1..n`).
Models `reconstruct_scalar` under the hypothesis that every party's share
arrives intact (`evaluator.rs` lines 947-949 sum the received shares with
the local one). -/
def openShares (n : ℕ) (s : ℕ → F) : F := ∑ id in Finset.Icc 1 n, s id

/-- The output-share formula of `Evaluator::mult` (`evaluator.rs` lines
204-207) and of each position of `Evaluator::batch_mult` (lines 253-266):
party 1 stores `d·e − d·b − e·a + c`, every other party stores
`0 − d·b − e·a + c`, where `d`, `e` are the opened `x+a`, `y+b` and
`a`, `b`, `c` are the party's shares of the consumed Beaver triple. -/
def multShare (myId : ℕ) (d e a b c : F) : F :=
  if myId = 1 then d * e - d * b - e * a + c else 0 - d * b - e * a + c

/-- Party `id`'s output share of `mult(x, y)`: the evaluator adds the wires
`x+a`, `y+b` (`add`, lines 194-195), opens them (`output_wire`, lines
198-199), and applies `multShare`. -/
def multOutShare (n : ℕ) (x y a b c : ℕ → F) (id : ℕ) : F :=
  multShare id
    (openShares n (fun p => x p + a p))
    (openShares n (fun p => y p + b p))
    (a id) (b id) (c id)

/-- Party `id`'s output share at position `i` of `batch_mult(xs, ys)`
(`evaluator.rs` lines 212-275): the same formula as `mult`, with the `i`-th
consumed triple and the `i`-th pair of opened values. -/
def batchMultOutShare (n : ℕ) (xs ys as bs cs : ℕ → ℕ → F) (id i : ℕ) : F :=
  multShare id
    (openShares n (fun p => xs p i + as p i))
    (openShares n (fun p => ys p i + bs p i))
    (as id i) (bs id i) (cs id i)

/-- Party `id`'s output share at position `i` of `batch_inv(xs)`
(`evaluator.rs` lines 129-154): the evaluator samples fresh random
sharings `rs` via `ran`, masks via `batch_mult(xs, rs)`, opens the masked
wires via `batch_output_wire` (the opened value `q`), and stores
`q⁻¹ · ⟦r⟧` (lines 143-148, `q_inv = F::from(1) / masked_values[i]` and
`wire_out = q_inv * self.get_wire(&rand_handles[i])`). -/
def batchInvOutShare (n : ℕ) (xs rs as bs cs : ℕ → ℕ → F) (id i : ℕ) : F :=
  (1 / openShares n (fun p => batchMultOutShare n xs rs as bs cs p i)) * rs id i

end SharesModelDefs

section PreprocessDefs

variable {F : Type} [Field F]

/-- One scalar drawn from the shared seeded RNG of
`Evaluator::preprocess_triples` (`evaluator.rs` lines 910-944).  The RNG
`StdRng::from_seed([42u8; 32])` is modelled as a stream `ℕ → F` of its
successive draws; the nested loop consumes, for triple index `i` and inner
index `j ∈ [1, n-1]`, the three draws numbered `3·((n-1)·i + (j-1))`,
`+1`, `+2` (in the order `a`, `b`, `c` of lines 925-927). -/
def tripleDraw (stream : ℕ → F) (n i j comp : ℕ) : F :=
  stream (3 * ((n - 1) * i + (j - 1)) + comp)

/-- The value of `sum_a[i]` (`comp = 0`), `sum_b[i]` (`comp = 1`) or
`sum_c[i]` (`comp = 2`) after the inner loop of iteration `i`
(`evaluator.rs` lines 929-931): the sum of the seeded draws for
`j = 1 .. n-1`. -/
def tripleDrawSum (stream : ℕ → F) (n i comp : ℕ) : F :=
  ∑ j0 in Finset.range (n - 1), tripleDraw stream n i (j0 + 1) comp

/-- `Evaluator::preprocess_triples` (`evaluator.rs` lines 910-944), run by
the party with id `myId` among `n` parties for `num` triples: the list of
triples pushed onto `beaver_triples`.  `stream` is the shared seeded RNG
(identical on every party), `locA`/`locB` are the party-local
`F::rand(&mut thread_rng())` draws of `a` and `b` at the top of iteration
`i` (lines 921-922).  For each `i`, the loop `for j in 1..n` pushes the
seeded draws when `j == my_id` (lines 933-937), and afterwards the party
with `my_id == n` pushes the correcting share
`(a − sum_a[i], b − sum_b[i], a·b − sum_c[i])` (lines 939-943). -/
def preprocess_triples (stream : ℕ → F) (locA locB : ℕ → F) (n myId num : ℕ) :
    List (F × F × F) :=
  (List.range num).flatMap (fun i =>
    ((List.range (n - 1)).filterMap (fun j0 =>
      if j0 + 1 = myId then
        some (tripleDraw stream n i (j0 + 1) 0,
              tripleDraw stream n i (j0 + 1) 1,
              tripleDraw stream n i (j0 + 1) 2)
      else none)) ++
    (if myId = n then
      [(locA i - tripleDrawSum stream n i 0,
        locB i - tripleDrawSum stream n i 1,
        locA i * locB i - tripleDrawSum stream n i 2)]
     else []))

end PreprocessDefs

section ChunkDefs

variable {α β : Type}

/-- The chunked-send loop shared by `batch_output_wire` (`evaluator.rs`
lines 427-441, chunk size 256) and
`batch_add_gt_elements_from_all_parties` (lines 604-618, chunk size 64):
while items remain, slice off `min(remaining, chunk)` aligned handles and
values and send them as one message.  The `chunk = 0` case never occurs in
the source (the constants are 256 and 64) and is mapped to an empty send
list. -/
def chunkPairs : ℕ → List α → List β → List (List α × List β)
  | _, [], _ => []
  | 0, _ :: _, _ => []
  | c + 1, h :: hs, vs =>
      ((h :: hs).take (c + 1), vs.take (c + 1)) ::
        chunkPairs (c + 1) ((h :: hs).drop (c + 1)) (vs.drop (c + 1))
termination_by _ l _ => l.length
decreasing_by simp [List.length_drop]; omega

/-- The send path of `batch_output_wire` / the batched group
reconstructions: one giant send when at most `threshold` items, else the
chunked loop (`evaluator.rs` lines 427-444 with `threshold = 256`, lines
604-621 with `threshold = 64`). -/
def sendsWithThreshold (threshold : ℕ) (handles : List α) (values : List β) :
    List (List α × List β) :=
  if handles.length > threshold then chunkPairs threshold handles values
  else [(handles, values)]

/-- The hypothetical single-send path: the whole aligned arrays in one
message (the `else` branch of the source, taken unconditionally). -/
def singleSend (handles : List α) (values : List β) :
    List (List α × List β) :=
  [(handles, values)]

/-- The `(handle, value)` pairs transmitted by a sequence of sends, in
overall order.  Each send carries aligned handle and value arrays
(`MessagingSystem::send_to_all`, §6 of the spec); the handle of each pair
is its receiver-side demultiplexer key. -/
def sentPairs (sends : List (List α × List β)) : List (α × β) :=
  (sends.map (fun s => s.1.zip s.2)).flatten

end ChunkDefs

section ReconstructDefs

variable {F : Type} [Field F]

/-- `reconstruct_scalar` (`evaluator.rs` lines 947-949): folds `+` over the
received shares together with the local one.  The receive loop of
`batch_output_wire` (lines 446-459) is identical on the chunked and the
single-send path: per handle, in input order, sum the oracle's received
values with the local share. -/
def reconstruct_scalar (shares : List F) : F := shares.foldl (· + ·) 0

/-- The outputs of `batch_output_wire` (`evaluator.rs` lines 446-459),
given the local share table `getWire` and the receive oracle `recv`
returning the other parties' decoded values for a handle. -/
def batch_output_wire_outputs (getWire : String → F) (recv : String → List F)
    (wire_handles : List String) : List F :=
  wire_handles.map (fun h => reconstruct_scalar (getWire h :: recv h))

/-- The observable behaviour of `batch_output_wire` (`evaluator.rs` lines
413-460) as written: the chunked send path (threshold 256) together with
the reconstructed outputs.  Values are the base58 encodings of the local
shares (lines 421-424; the encoding helpers live in the external
`encoding` module and are modelled by the parameter `encodeF`). -/
def batch_output_wire_chunked_run (encodeF : F → String)
    (getWire : String → F) (recv : String → List F)
    (wire_handles : List String) :
    List (List String × List String) × List F :=
  (sendsWithThreshold 256 wire_handles
      (wire_handles.map (fun h => encodeF (getWire h))),
   batch_output_wire_outputs getWire recv wire_handles)

/-- `batch_output_wire` with the single giant send (the `else` branch of
line 442 taken unconditionally); the receive loop is the same code. -/
def batch_output_wire_single_run (encodeF : F → String)
    (getWire : String → F) (recv : String → List F)
    (wire_handles : List String) :
    List (List String × List String) × List F :=
  (singleSend wire_handles (wire_handles.map (fun h => encodeF (getWire h))),
   batch_output_wire_outputs getWire recv wire_handles)

end ReconstructDefs

section GtReconstructDefs

variable {Gt : Type} [AddCommMonoid Gt]

/-- `reconstruct_gt` (`evaluator.rs` lines 959-961): the group fold of the
received `Gt` shares together with the local one. -/
def reconstruct_gt (shares : List Gt) : Gt := shares.foldl (· + ·) 0

/-- The outputs of `batch_add_gt_elements_from_all_parties`
(`evaluator.rs` lines 623-636): per identifier, in input order, the sum of
the oracle's received group elements with the local input. -/
def batch_add_gt_outputs (inputs : List Gt) (identifiers : List String)
    (recv : String → List Gt) : List Gt :=
  (identifiers.zip inputs).map (fun hv => reconstruct_gt (hv.2 :: recv hv.1))

/-- The observable behaviour of `batch_add_gt_elements_from_all_parties`
(`evaluator.rs` lines 588-637) as written: chunked sends at threshold 64
(line 604) plus the reconstructed outputs.  `encodeGt` models the external
base58 encoding of `Gt` elements. -/
def batch_add_gt_chunked_run (encodeGt : Gt → String)
    (inputs : List Gt) (identifiers : List String)
    (recv : String → List Gt) :
    List (List String × List String) × List Gt :=
  (sendsWithThreshold 64 identifiers (inputs.map encodeGt),
   batch_add_gt_outputs inputs identifiers recv)

/-- `batch_add_gt_elements_from_all_parties` with one giant send. -/
def batch_add_gt_single_run (encodeGt : Gt → String)
    (inputs : List Gt) (identifiers : List String)
    (recv : String → List Gt) :
    List (List String × List String) × List Gt :=
  (singleSend identifiers (inputs.map encodeGt),
   batch_add_gt_outputs inputs identifiers recv)

end GtReconstructDefs

section Ran64Defs

variable {F : Type} [Field F] [DecidableEq F]

/-- The output loop of `Evaluator::batch_ran_64` (`evaluator.rs` lines
88-102), unrolled from the top: for `i = 0 .. len-1`, panic (here: `none`)
when the opened value `a_exp_64s[i]` is zero, otherwise take
`LOG_PERM_SIZE` repeated square roots of it (`utils::compute_root`, i.e.
`x.sqrt().unwrap()` of the external `ark_ff` crate, modelled by the
function parameter `sqrtFn`) and append the share
`get_wire(h_as[i]) / l`.  Out-of-bounds indexing is modelled as failure. -/
def batch_ran_64 (sqrtFn : F → F) (aShares opened : List F) :
    ℕ → Option (List F)
  | 0 => some []
  | len + 1 =>
      (batch_ran_64 sqrtFn aShares opened len).bind (fun l =>
        (opened.get? len).bind (fun A =>
          if A = 0 then none
          else (aShares.get? len).map
            (fun a => l ++ [a / sqrtFn^[LOG_PERM_SIZE] A])))

end Ran64Defs

section Base58Defs

/-- Modelled from the spec: the external `bs58` crate used by
`compute_fresh_wire_label` (`evaluator.rs` line 59); per the spec, a handle
is "the base58 encoding of the big-endian 8-byte representation of a
monotonic per-party counter".  This is the standard Bitcoin alphabet. -/
def b58Alphabet : List Char :=
  "123456789ABCDEFGHJKLMNPQRSTUVWXYZabcdefghijkmnopqrstuvwxyz".toList

/-- The character for base58 digit `d`. -/
def b58DigitChar (d : ℕ) : Char := b58Alphabet.getD d "1".toList.headI

/-- The base58 digit string (most significant first) of a natural number;
empty for zero, as in the standard algorithm. -/
def b58Digits (x : ℕ) : List Char :=
  if h : x = 0 then []
  else b58Digits (x / 58) ++ [b58DigitChar (x % 58)]
termination_by x
decreasing_by exact Nat.div_lt_self (Nat.pos_of_ne_zero h) (by norm_num)

/-- The index of a character in the base58 alphabet (its digit value). -/
def b58DigitVal (c : Char) : ℕ := b58Alphabet.indexOf c

/-- Decoding a base58 digit string back to a natural number. -/
def b58Decode (s : List Char) : ℕ :=
  s.foldl (fun acc c => 58 * acc + b58DigitVal c) 0

/-- `u64::to_be_bytes`: the big-endian 8-byte representation of the
wrapping 64-bit counter.  Each byte only reads the low 64 bits, so the
formulas below agree with the bytes of `x mod 2^64`. -/
def toBEBytes8 (x : ℕ) : List ℕ :=
  [x / 2 ^ 56 % 256, x / 2 ^ 48 % 256, x / 2 ^ 40 % 256, x / 2 ^ 32 % 256,
   x / 2 ^ 24 % 256, x / 2 ^ 16 % 256, x / 2 ^ 8 % 256, x % 256]

/-- Number of leading zero bytes (encoded as leading `'1'` characters by
base58). -/
def countLeadingZeroBytes : List ℕ → ℕ
  | [] => 0
  | b :: bs => if b = 0 then countLeadingZeroBytes bs + 1 else 0

/-- The big-endian value of a byte string. -/
def natOfBEBytes (bs : List ℕ) : ℕ := bs.foldl (fun acc b => 256 * acc + b) 0

/-- Modelled from the spec: `bs58::encode(..).into_string()` — one `'1'`
per leading zero byte followed by the base58 digits of the big-endian
value. -/
def bs58Encode (bytes : List ℕ) : String :=
  String.mk (List.replicate (countLeadingZeroBytes bytes) '1' ++
    b58Digits (natOfBEBytes bytes))

/-- The wire label minted for counter value `k`:
`bs58::encode(&k.to_be_bytes())` (`evaluator.rs` line 59). -/
def wireLabel (k : ℕ) : String := bs58Encode (toBEBytes8 k)

end Base58Defs

section EvaluatorDefs

variable {F : Type} [Field F]

/-- The mutable state of `Evaluator` (`evaluator.rs` lines 23-38), for one
party.  The `messaging` collaborator is reduced to what the gate layer
reads from it: the party id (`get_my_id`) and, for the reconstruction
subprotocols, an oracle `recon` giving the value returned by the `k`-th
reconstruction performed so far (the network receive is external to this
repository).  The `HashMap<String, F>` wire table is modelled as an
association list with newest insertion first. -/
structure EvaluatorState (F : Type) where
  myId : ℕ
  beaver_triples : List (F × F × F)
  rand_sharings : List F
  wire_shares : List (String × F)
  gate_counter : ℕ
  beaver_counter : ℕ
  rand_counter : ℕ
  recon : ℕ → F
  recon_counter : ℕ

/-- `compute_fresh_wire_label` (`evaluator.rs` lines 57-60): advance the
gate counter, return the base58 label of its new value. -/
def fresh_label (s : EvaluatorState F) : String × EvaluatorState F :=
  (wireLabel (s.gate_counter + 1), { s with gate_counter := s.gate_counter + 1 })

/-- `get_wire` (`evaluator.rs` lines 63-65); the `unwrap` of a missing
handle is modelled as `none`. -/
def get_wire (s : EvaluatorState F) (h : String) : Option F :=
  (s.wire_shares.find? (fun p => p.1 = h)).map Prod.snd

/-- `wire_shares.insert` on the wire table. -/
def insert_wire (s : EvaluatorState F) (h : String) (v : F) : EvaluatorState F :=
  { s with wire_shares := (h, v) :: s.wire_shares }

/-- `Evaluator::ran` (`evaluator.rs` lines 69-79): fresh label, store
`rand_sharings[rand_counter]`, advance `rand_counter`.  Exhaustion (index
out of bounds) panics, modelled as `none`. -/
def ran_op (s : EvaluatorState F) : Option (String × EvaluatorState F) :=
  let (h, s1) := fresh_label s
  (s1.rand_sharings.get? s1.rand_counter).map (fun v =>
    (h, { insert_wire s1 h v with rand_counter := s1.rand_counter + 1 }))

/-- `Evaluator::add` (`evaluator.rs` lines 108-116). -/
def add_op (s : EvaluatorState F) (hx hy : String) :
    Option (String × EvaluatorState F) :=
  let (h, s1) := fresh_label s
  (get_wire s1 hx).bind (fun x =>
    (get_wire s1 hy).map (fun y => (h, insert_wire s1 h (x + y))))

/-- `Evaluator::sub` (`evaluator.rs` lines 119-127). -/
def sub_op (s : EvaluatorState F) (hx hy : String) :
    Option (String × EvaluatorState F) :=
  let (h, s1) := fresh_label s
  (get_wire s1 hx).bind (fun x =>
    (get_wire s1 hy).map (fun y => (h, insert_wire s1 h (x - y))))

/-- `Evaluator::scale` (`evaluator.rs` lines 171-179). -/
def scale_op (s : EvaluatorState F) (hx : String) (k : F) :
    Option (String × EvaluatorState F) :=
  let (h, s1) := fresh_label s
  (get_wire s1 hx).map (fun x => (h, insert_wire s1 h (x * k)))

/-- `Evaluator::clear_add` (`evaluator.rs` lines 157-168): party 1 adds
the public value, the others keep their share. -/
def clear_add_op (s : EvaluatorState F) (hx : String) (v : F) :
    Option (String × EvaluatorState F) :=
  (get_wire s hx).map (fun x =>
    let share := if s.myId = 1 then x + v else x
    let (h, s1) := fresh_label s
    (h, insert_wire s1 h share))

/-- `Evaluator::fixed_wire_handle` (`evaluator.rs` lines 277-287): party 1
stores the value, the others store 0. -/
def fixed_wire_op (s : EvaluatorState F) (v : F) : String × EvaluatorState F :=
  let (h, s1) := fresh_label s
  (h, insert_wire s1 h (if s.myId = 1 then v else 0))

/-- `Evaluator::output_wire` (`evaluator.rs` lines 391-408): read the
local share (panic if missing), then perform one reconstruction round; the
opened value comes from the oracle `recon` at the next reconstruction
index. -/
def output_wire_op (s : EvaluatorState F) (h : String) :
    Option (F × EvaluatorState F) :=
  (get_wire s h).map (fun _ =>
    (s.recon s.recon_counter, { s with recon_counter := s.recon_counter + 1 }))

/-- `Evaluator::beaver` (`evaluator.rs` lines 336-358): three fresh
labels, store the components of `beaver_triples[beaver_counter]`, advance
`beaver_counter`. -/
def beaver_op (s : EvaluatorState F) :
    Option (String × String × String × EvaluatorState F) :=
  let (ha, s1) := fresh_label s
  let (hb, s2) := fresh_label s1
  let (hc, s3) := fresh_label s2
  (s3.beaver_triples.get? s3.beaver_counter).map (fun t =>
    let s4 := insert_wire (insert_wire (insert_wire s3 ha t.1) hb t.2.1) hc t.2.2
    (ha, hb, hc, { s4 with beaver_counter := s3.beaver_counter + 1 }))

/-- The loop body of `Evaluator::batch_beaver` (`evaluator.rs` lines
363-382): iteration `i` mints three labels and stores
`beaver_triples[beaver_counter + i]`; the counter itself is only advanced
after the loop. -/
def batch_beaver_loop (s : EvaluatorState F) (base i rem : ℕ) :
    Option (List String × EvaluatorState F) :=
  match rem with
  | 0 => some ([], s)
  | rem + 1 =>
      let (ha, s1) := fresh_label s
      let (hb, s2) := fresh_label s1
      let (hc, s3) := fresh_label s2
      (s3.beaver_triples.get? (base + i)).bind (fun t =>
        let s4 :=
          insert_wire (insert_wire (insert_wire s3 ha t.1) hb t.2.1) hc t.2.2
        (batch_beaver_loop s4 base (i + 1) rem).map (fun r =>
          (ha :: hb :: hc :: r.1, r.2)))

/-- `Evaluator::batch_beaver` (`evaluator.rs` lines 360-388): run the loop
for `num` triples, then `beaver_counter += num`. -/
def batch_beaver_op (s : EvaluatorState F) (num : ℕ) :
    Option (List String × EvaluatorState F) :=
  (batch_beaver_loop s s.beaver_counter 0 num).map (fun r =>
    (r.1, { r.2 with beaver_counter := r.2.beaver_counter + num }))

/-- `Evaluator::mult` (`evaluator.rs` lines 185-210): consume a triple,
add the masks, open both padded wires, store the Beaver output share
(`multShare`) under a fresh label; only that final label is returned. -/
def mult_op (s : EvaluatorState F) (hx hy : String) :
    Option (String × EvaluatorState F) :=
  (beaver_op s).bind (fun r =>
    let (ha, hb, hc, s1) := r
    (get_wire s1 ha).bind (fun a =>
      (get_wire s1 hb).bind (fun b =>
        (get_wire s1 hc).bind (fun c =>
          (add_op s1 hx ha).bind (fun rxa =>
            (add_op rxa.2 hy hb).bind (fun ryb =>
              (output_wire_op ryb.2 rxa.1).bind (fun rd =>
                (output_wire_op rd.2 ryb.1).map (fun re =>
                  let (h, s7) := fresh_label re.2
                  (h, insert_wire s7 h
                    (multShare s.myId rd.1 re.1 a b c))))))))))

/-- The constant-one wire minted by
`batch_dist_ibe_encrypt_with_common_mask` (`evaluator.rs` lines 856-857):
a fresh label under which every party stores `F::one()` (not an additive
share of one). -/
def ibe_const_one_op (s : EvaluatorState F) : String × EvaluatorState F :=
  let (h, s1) := fresh_label s
  (h, insert_wire s1 h 1)

/-- The gate-layer operations of the evaluator, with their arguments.
`batchBeaver` carries its batch length; reconstruction-bearing gates draw
opened values from the state's oracle. -/
inductive EvOp (F : Type) where
  | ran : EvOp F
  | fixedWire (v : F) : EvOp F
  | add (hx hy : String) : EvOp F
  | sub (hx hy : String) : EvOp F
  | scale (hx : String) (k : F) : EvOp F
  | clearAdd (hx : String) (v : F) : EvOp F
  | outputWire (hx : String) : EvOp F
  | beaver : EvOp F
  | batchBeaver (num : ℕ) : EvOp F
  | mult (hx hy : String) : EvOp F
  | ibeConstOne : EvOp F

/-- One evaluator call: returns the list of handles handed back to the
caller (empty for `output_wire`, which returns an opened value) and the
successor state; `none` models a panic (missing handle or exhausted
preprocessing). -/
def evStep (s : EvaluatorState F) : EvOp F →
    Option (List String × EvaluatorState F)
  | .ran => (ran_op s).map (fun r => ([r.1], r.2))
  | .fixedWire v => some ([(fixed_wire_op s v).1], (fixed_wire_op s v).2)
  | .add hx hy => (add_op s hx hy).map (fun r => ([r.1], r.2))
  | .sub hx hy => (sub_op s hx hy).map (fun r => ([r.1], r.2))
  | .scale hx k => (scale_op s hx k).map (fun r => ([r.1], r.2))
  | .clearAdd hx v => (clear_add_op s hx v).map (fun r => ([r.1], r.2))
  | .outputWire hx => (output_wire_op s hx).map (fun r => ([], r.2))
  | .beaver => (beaver_op s).map (fun r =>
      ([r.1, r.2.1, r.2.2.1], r.2.2.2))
  | .batchBeaver num => batch_beaver_op s num
  | .mult hx hy => (mult_op s hx hy).map (fun r => ([r.1], r.2))
  | .ibeConstOne => some ([(ibe_const_one_op s).1], (ibe_const_one_op s).2)

/-- Running a sequence of evaluator calls, concatenating the returned
handles; a panic anywhere aborts the session. -/
def evRun (s : EvaluatorState F) : List (EvOp F) →
    Option (List String × EvaluatorState F)
  | [] => some ([], s)
  | op :: ops =>
      (evStep s op).bind (fun r =>
        (evRun r.2 ops).map (fun r2 => (r.1 ++ r2.1, r2.2)))

/-- `Evaluator::share_poly_eval` (`evaluator.rs` lines 290-302): the loop
`sum += coeff * x_pow; x_pow *= x` over the local coefficient list,
started from `sum = 0`, `x_pow = 1`. -/
def share_poly_eval (coeffs : List F) (x : F) : F :=
  (coeffs.foldl (fun p coeff => (p.1 + coeff * p.2, p.2 * x))
    ((0 : F), (1 : F))).1

/-- `utils::compute_power` (`utils.rs` lines 88-90). -/
def compute_power (x : F) (n : ℕ) : F := x ^ n

/-- `utils::interpolate_poly_over_mult_subgroup` (`utils.rs` lines 58-68)
over the size-`v.len()` multiplicative subgroup generated by `ω`.
Modelled from the spec: the function delegates to the external
`ark_poly` `Evaluations::interpolate` ("FFT interpolation" per §2 C3),
whose result is the inverse DFT over the domain:
`coeff_j = N⁻¹ · Σ_i v_i · ω^(−i·j)`. -/
def interpolate_poly_over_mult_subgroup (ω : F) (v : List F) : List F :=
  (List.range v.length).map (fun j =>
    (v.length : F)⁻¹ *
      ∑ i in Finset.range v.length, v.getD i 0 * (ω ^ (i * j))⁻¹)

/-- `Evaluator::share_poly_mult` (`evaluator.rs` lines 305-334) at the
multi-party share level, for the party with id `id`: evaluate the local
share polynomials at all `2·PERM_SIZE` powers of `ω`
(`utils::multiplicative_subgroup_of_size(2·PERM_SIZE)`), multiply
pointwise via `batch_mult` with the consumed triples `as`, `bs`, `cs`
(the party keeps its local output share, `get_wire`), and interpolate
locally. -/
def share_poly_mult_shares (n : ℕ) (ω : F) (fShare gShare : ℕ → List F)
    (as bs cs : ℕ → ℕ → F) (id : ℕ) : List F :=
  interpolate_poly_over_mult_subgroup ω
    ((List.range (2 * PERM_SIZE)).map (fun i =>
      batchMultOutShare n
        (fun p i => share_poly_eval (fShare p) (compute_power ω i))
        (fun p i => share_poly_eval (gShare p) (compute_power ω i))
        as bs cs id i))

/-- Two single-party evaluator states that may belong to different parties
of the same session: they agree on the gate counter, the wire-table keys,
the three consumption counters and the preprocessing capacities, while the
party id, the preprocessed share values, the stored shares and the
reconstruction oracle may all differ. -/
@[reducible]
def alignedStates (s1 s2 : EvaluatorState F) : Prop :=
  s1.gate_counter = s2.gate_counter ∧
  s1.wire_shares.map Prod.fst = s2.wire_shares.map Prod.fst ∧
  s1.beaver_counter = s2.beaver_counter ∧
  s1.rand_counter = s2.rand_counter ∧
  s1.recon_counter = s2.recon_counter ∧
  s1.beaver_triples.length = s2.beaver_triples.length ∧
  s1.rand_sharings.length = s2.rand_sharings.length

/-- Relating two optional results: both fail, or both succeed with related
values. -/
def optionRel {α β : Type} (R : α → β → Prop) : Option α → Option β → Prop
  | none, none => True
  | some a, some b => R a b
  | _, _ => False

/-- Well-formed wire table: every key ever inserted is the label of some
already-spent counter value (spec invariant 1: "the wire table contains an
entry for every handle ever returned"; here the converse direction needed
for freshness — every entry's key was minted by the allocator). -/
def wfKeys (s : EvaluatorState F) : Prop :=
  ∀ k ∈ s.wire_shares.map Prod.fst,
    ∃ j, 1 ≤ j ∧ j ≤ s.gate_counter ∧ k = wireLabel j

end EvaluatorDefs

/-! ## Theorems -/

section SharesModelLemmas

variable {F : Type} [Field F]

lemma openShares_add (n : ℕ) (s t : ℕ → F) :
    openShares n (fun p => s p + t p) = openShares n s + openShares n t := by
  simp [openShares, Finset.sum_add_distrib]

/-- Summing the per-party Beaver output shares: with `d`, `e` public and the
triple shares summing to `A`, `B`, `C`, the output shares sum to
`d·e − d·B − e·A + C` (party 1 contributes the `d·e` term exactly once). -/
lemma sum_multShare (n : ℕ) (hn : 1 ≤ n) (d e : F) (a b c : ℕ → F) :
    (∑ id in Finset.Icc 1 n, multShare id d e (a id) (b id) (c id)) =
      d * e - d * openShares n b - e * openShares n a + openShares n c := by
  have h1 : (1 : ℕ) ∈ Finset.Icc 1 n := by
    simp [Finset.mem_Icc]; omega
  have hsplit :
      (∑ id in Finset.Icc 1 n, multShare id d e (a id) (b id) (c id)) =
        d * e + ∑ id in Finset.Icc 1 n, (0 - d * b id - e * a id + c id) := by
    have hrw : ∀ id ∈ Finset.Icc 1 n,
        multShare id d e (a id) (b id) (c id) =
          (if id = 1 then d * e else 0) + (0 - d * b id - e * a id + c id) := by
      intro id _
      by_cases hid : id = 1 <;> simp [multShare, hid] <;> ring
    rw [Finset.sum_congr rfl hrw, Finset.sum_add_distrib,
      Finset.sum_ite_eq' (Finset.Icc 1 n) 1 (fun _ => d * e)]
    simp [h1]
  rw [hsplit]
  simp only [openShares, Finset.sum_add_distrib, Finset.sum_sub_distrib,
    ← Finset.mul_sum, Finset.sum_const_zero]
  ring

/-- Opening a `batch_mult` output position under a correct Beaver triple
gives the product of the opened inputs. -/
lemma open_batchMultOutShare (n : ℕ) (hn : 1 ≤ n)
    (xs ys as bs cs : ℕ → ℕ → F) (i : ℕ)
    (hc : openShares n (fun p => cs p i) =
      openShares n (fun p => as p i) * openShares n (fun p => bs p i)) :
    openShares n (fun id => batchMultOutShare n xs ys as bs cs id i) =
      openShares n (fun p => xs p i) * openShares n (fun p => ys p i) := by
  unfold openShares batchMultOutShare
  rw [sum_multShare n hn]
  rw [openShares_add, openShares_add]
  unfold openShares at hc ⊢
  rw [hc]
  ring

end SharesModelLemmas

section C1

variable {F : Type} [Field F]

/-- **C1.** For every `n ≥ 2` parties, if the parties' shares of `x` and `y`
sum to `X` and `Y`, the consumed Beaver triple's shares sum to `(A, B, C)`
with `C = A·B`, and the reconstructions used by the gate return the true
sums of shares (built into `openShares`), then the output shares of
`mult(x, y)` sum to `X·Y`; and the same holds at every position `i < L` of
`batch_mult(xs, ys)` with the `i`-th consumed triple. -/
theorem mult_and_batch_mult_open_correct
    (n : ℕ) (hn : 2 ≤ n)
    (x y a b c : ℕ → F)
    (hc : openShares n c = openShares n a * openShares n b)
    (L : ℕ) (xs ys as bs cs : ℕ → ℕ → F)
    (hcs : ∀ i < L,
      openShares n (fun p => cs p i) =
        openShares n (fun p => as p i) * openShares n (fun p => bs p i)) :
    openShares n (multOutShare n x y a b c) =
        openShares n x * openShares n y ∧
    ∀ i < L,
      openShares n (fun id => batchMultOutShare n xs ys as bs cs id i) =
        openShares n (fun p => xs p i) * openShares n (fun p => ys p i) := by
  have hn1 : 1 ≤ n := le_trans (by norm_num) hn
  constructor
  · unfold openShares multOutShare
    rw [sum_multShare n hn1]
    rw [openShares_add, openShares_add]
    unfold openShares at hc ⊢
    rw [hc]
    ring
  · intro i hi
    exact open_batchMultOutShare n hn1 xs ys as bs cs i (hcs i hi)

/-- Witness for C1 at a concrete input: `n = 2` parties over `ZMod 101`,
`x`-shares `(3, 4)`, `y`-shares `(5, 6)`, triple shares summing to
`(2, 3, 6)`; the opened product is `7 · 11 = 77`. -/
theorem mult_and_batch_mult_open_correct_witness :
    (2 ≤ 2) ∧
    (openShares 2 (fun id => if id = 1 then (3 : ZMod 101) else 4) *
        openShares 2 (fun id => if id = 1 then (5 : ZMod 101) else 6) = 77) ∧
    openShares 2
        (multOutShare 2
          (fun id => if id = 1 then (3 : ZMod 101) else 4)
          (fun id => if id = 1 then (5 : ZMod 101) else 6)
          (fun id => if id = 1 then 2 else 0)
          (fun id => if id = 1 then 3 else 0)
          (fun id => if id = 1 then 6 else 0)) = 77 := by
  refine ⟨by norm_num, by decide, ?_⟩
  have h := mult_and_batch_mult_open_correct (F := ZMod 101) 2 (by norm_num)
    (fun id => if id = 1 then (3 : ZMod 101) else 4)
    (fun id => if id = 1 then (5 : ZMod 101) else 6)
    (fun id => if id = 1 then 2 else 0)
    (fun id => if id = 1 then 3 else 0)
    (fun id => if id = 1 then 6 else 0)
    (by decide)
    0 (fun _ _ => 0) (fun _ _ => 0) (fun _ _ => 0) (fun _ _ => 0) (fun _ _ => 0)
    (by intro i hi; omega)
  rw [h.1]
  decide

end C1

section PreprocessLemmas

variable {F : Type} [Field F]

/-- The inner loop of `preprocess_triples` hits `j == my_id` exactly once
when `1 ≤ myId ≤ n-1`. -/
lemma filterMap_loop_hit {α : Type} (f : ℕ → α) (m id : ℕ)
    (h1 : 1 ≤ id) (h2 : id ≤ m) :
    (List.range m).filterMap
        (fun j0 => if j0 + 1 = id then some (f j0) else none) =
      [f (id - 1)] := by
  induction m with
  | zero => omega
  | succ m ih =>
    rw [List.range_succ, List.filterMap_append]
    by_cases hm : id ≤ m
    · rw [ih hm]
      have : ¬ (m + 1 = id) := by omega
      simp [this]
    · have hid : id = m + 1 := by omega
      have hnil : (List.range m).filterMap
          (fun j0 => if j0 + 1 = id then some (f j0) else none) = [] := by
        rw [List.filterMap_eq_nil_iff]
        intro j0 hj0
        have : j0 < m := List.mem_range.mp hj0
        have : ¬ (j0 + 1 = id) := by omega
        simp [this]
      rw [hnil]
      simp [hid]

/-- The inner loop of `preprocess_triples` never fires for the party with
`myId = n` (the loop runs `j = 1 .. n-1`). -/
lemma filterMap_loop_miss {α : Type} (f : ℕ → α) (n : ℕ) :
    (List.range (n - 1)).filterMap
        (fun j0 => if j0 + 1 = n then some (f j0) else none) = [] := by
  rw [List.filterMap_eq_nil_iff]
  intro j0 hj0
  have : j0 < n - 1 := List.mem_range.mp hj0
  have : ¬ (j0 + 1 = n) := by omega
  simp [this]

/-- For a party with `1 ≤ myId ≤ n-1`, `preprocess_triples` stores exactly
the seeded draws of its own slot, one triple per index. -/
lemma preprocess_triples_eq_map_loop (stream : ℕ → F) (locA locB : ℕ → F)
    (n myId num : ℕ) (h1 : 1 ≤ myId) (h2 : myId ≤ n - 1) :
    preprocess_triples stream locA locB n myId num =
      (List.range num).map (fun i =>
        (tripleDraw stream n i myId 0,
         tripleDraw stream n i myId 1,
         tripleDraw stream n i myId 2)) := by
  have hne : myId ≠ n := by omega
  unfold preprocess_triples
  induction num with
  | zero => simp
  | succ num ih =>
    rw [List.range_succ, List.flatMap_append, List.map_append, ih]
    simp only [List.flatMap_cons, List.flatMap_nil, List.append_nil, List.map_cons,
      List.map_nil]
    rw [filterMap_loop_hit _ _ _ h1 h2]
    have hsub : myId - 1 + 1 = myId := by omega
    simp [hne, hsub]

/-- For the party with `myId = n`, `preprocess_triples` stores exactly the
correcting shares, one triple per index. -/
lemma preprocess_triples_eq_map_corr (stream : ℕ → F) (locA locB : ℕ → F)
    (n num : ℕ) :
    preprocess_triples stream locA locB n n num =
      (List.range num).map (fun i =>
        (locA i - tripleDrawSum stream n i 0,
         locB i - tripleDrawSum stream n i 1,
         locA i * locB i - tripleDrawSum stream n i 2)) := by
  unfold preprocess_triples
  induction num with
  | zero => simp
  | succ num ih =>
    rw [List.range_succ, List.flatMap_append, List.map_append, ih]
    simp only [List.flatMap_cons, List.flatMap_nil, List.append_nil, List.map_cons,
      List.map_nil]
    rw [filterMap_loop_miss]
    simp

lemma getD_map_range {α : Type} (f : ℕ → α) (num i : ℕ) (hi : i < num) (d : α) :
    (((List.range num).map f).getD i d) = f i := by
  rw [List.getD_eq_getElem?_getD]
  simp [List.getElem?_map, List.getElem?_range, hi]

/-- Summing one seeded-draw component over the parties `1 .. n-1` gives the
corresponding `sum_*[i]` accumulator value. -/
lemma sum_Icc_tripleDraw (stream : ℕ → F) (n i comp m : ℕ) (hm : n - 1 = m) :
    (∑ id in Finset.Icc 1 m, tripleDraw stream n i id comp) =
      tripleDrawSum stream n i comp := by
  unfold tripleDrawSum
  rw [hm]
  rw [← Nat.Ico_succ_right, Finset.sum_Ico_eq_sum_range]
  refine Finset.sum_congr rfl (fun j0 _ => ?_)
  rw [Nat.add_comm 1 j0]

end PreprocessLemmas

section C2

variable {F : Type} [Field F]

/-- **C2.** For every `n ≥ 2`, if all `n` parties run `preprocess_triples`
over the identical seeded RNG stream (the `[42u8; 32]`-seeded `StdRng`)
with arbitrary party-local draws `locA`, `locB`, then every party stores
exactly `num` triples, and for every triple index `i < num` the parties'
stored triples sum component-wise to `(A, B, C)` with `C = A·B`. -/
theorem preprocess_triples_open_is_beaver
    (stream : ℕ → F) (locA locB : ℕ → ℕ → F) (n num : ℕ) (hn : 2 ≤ n)
    (i : ℕ) (hi : i < num) :
    (∀ id ∈ Finset.Icc 1 n,
      (preprocess_triples stream (locA id) (locB id) n id num).length = num) ∧
    (∑ id in Finset.Icc 1 n,
        ((preprocess_triples stream (locA id) (locB id) n id num).getD i
          (0, 0, 0)).2.2) =
      (∑ id in Finset.Icc 1 n,
        ((preprocess_triples stream (locA id) (locB id) n id num).getD i
          (0, 0, 0)).1) *
      (∑ id in Finset.Icc 1 n,
        ((preprocess_triples stream (locA id) (locB id) n id num).getD i
          (0, 0, 0)).2.1) := by
  obtain ⟨m, rfl⟩ : ∃ m, n = m + 1 := ⟨n - 1, by omega⟩
  have hm : m + 1 - 1 = m := by omega
  have hrw : ∀ id ∈ Finset.Icc 1 (m + 1),
      preprocess_triples stream (locA id) (locB id) (m + 1) id num =
        if id = m + 1 then
          (List.range num).map (fun k =>
            (locA id k - tripleDrawSum stream (m + 1) k 0,
             locB id k - tripleDrawSum stream (m + 1) k 1,
             locA id k * locB id k - tripleDrawSum stream (m + 1) k 2))
        else
          (List.range num).map (fun k =>
            (tripleDraw stream (m + 1) k id 0,
             tripleDraw stream (m + 1) k id 1,
             tripleDraw stream (m + 1) k id 2)) := by
    intro id hid
    rw [Finset.mem_Icc] at hid
    by_cases h : id = m + 1
    · rw [h, if_pos rfl]
      exact preprocess_triples_eq_map_corr stream (locA (m + 1)) (locB (m + 1))
        (m + 1) num
    · rw [if_neg h]
      exact preprocess_triples_eq_map_loop stream (locA id) (locB id) (m + 1) id num
        (by omega) (by omega)
  constructor
  · intro id hid
    rw [hrw id hid]
    by_cases h : id = m + 1 <;> simp [h]
  · have hgetD : ∀ id ∈ Finset.Icc 1 (m + 1),
        (preprocess_triples stream (locA id) (locB id) (m + 1) id num).getD i
            (0, 0, 0) =
          if id = m + 1 then
            (locA id i - tripleDrawSum stream (m + 1) i 0,
             locB id i - tripleDrawSum stream (m + 1) i 1,
             locA id i * locB id i - tripleDrawSum stream (m + 1) i 2)
          else
            (tripleDraw stream (m + 1) i id 0,
             tripleDraw stream (m + 1) i id 1,
             tripleDraw stream (m + 1) i id 2) := by
      intro id hid
      rw [hrw id hid]
      by_cases h : id = m + 1 <;>
        simp only [h, if_pos, if_neg, ite_true, ite_false] <;>
        rw [getD_map_range _ num i hi]
    have key : ∀ (comp : ℕ) (v : F),
        (∑ id in Finset.Icc 1 (m + 1),
          (if id = m + 1 then v - tripleDrawSum stream (m + 1) i comp
           else tripleDraw stream (m + 1) i id comp)) = v := by
      intro comp v
      rw [Finset.sum_Icc_succ_top (by omega : 1 ≤ m + 1)]
      rw [if_pos rfl]
      have hcg : ∀ id ∈ Finset.Icc 1 m,
          (if id = m + 1 then v - tripleDrawSum stream (m + 1) i comp
           else tripleDraw stream (m + 1) i id comp) =
            tripleDraw stream (m + 1) i id comp := by
        intro id hid
        rw [Finset.mem_Icc] at hid
        rw [if_neg (by omega)]
      rw [Finset.sum_congr rfl hcg, sum_Icc_tripleDraw stream (m + 1) i comp m hm]
      ring
    have e1 : (∑ id in Finset.Icc 1 (m + 1),
        ((preprocess_triples stream (locA id) (locB id) (m + 1) id num).getD i
          (0, 0, 0)).1) = locA (m + 1) i := by
      have hpt : ∀ id ∈ Finset.Icc 1 (m + 1),
          ((preprocess_triples stream (locA id) (locB id) (m + 1) id num).getD i
            (0, 0, 0)).1 =
            (if id = m + 1 then
              locA (m + 1) i - tripleDrawSum stream (m + 1) i 0
             else tripleDraw stream (m + 1) i id 0) := by
        intro id hid
        rw [hgetD id hid]
        by_cases h : id = m + 1 <;> simp [h]
      rw [Finset.sum_congr rfl hpt, key 0 (locA (m + 1) i)]
    have e2 : (∑ id in Finset.Icc 1 (m + 1),
        ((preprocess_triples stream (locA id) (locB id) (m + 1) id num).getD i
          (0, 0, 0)).2.1) = locB (m + 1) i := by
      have hpt : ∀ id ∈ Finset.Icc 1 (m + 1),
          ((preprocess_triples stream (locA id) (locB id) (m + 1) id num).getD i
            (0, 0, 0)).2.1 =
            (if id = m + 1 then
              locB (m + 1) i - tripleDrawSum stream (m + 1) i 1
             else tripleDraw stream (m + 1) i id 1) := by
        intro id hid
        rw [hgetD id hid]
        by_cases h : id = m + 1 <;> simp [h]
      rw [Finset.sum_congr rfl hpt, key 1 (locB (m + 1) i)]
    have e3 : (∑ id in Finset.Icc 1 (m + 1),
        ((preprocess_triples stream (locA id) (locB id) (m + 1) id num).getD i
          (0, 0, 0)).2.2) = locA (m + 1) i * locB (m + 1) i := by
      have hpt : ∀ id ∈ Finset.Icc 1 (m + 1),
          ((preprocess_triples stream (locA id) (locB id) (m + 1) id num).getD i
            (0, 0, 0)).2.2 =
            (if id = m + 1 then
              locA (m + 1) i * locB (m + 1) i - tripleDrawSum stream (m + 1) i 2
             else tripleDraw stream (m + 1) i id 2) := by
        intro id hid
        rw [hgetD id hid]
        by_cases h : id = m + 1 <;> simp [h]
      rw [Finset.sum_congr rfl hpt, key 2 (locA (m + 1) i * locB (m + 1) i)]
    rw [e1, e2, e3]

/-- Witness for C2: `n = 2` parties over `ZMod 101`, one triple, stream
`k ↦ k`, local draws `locA id k = id + k`, `locB id k = 2·id`. -/
theorem preprocess_triples_open_is_beaver_witness :
    ((2 : ℕ) ≤ 2) ∧ ((0 : ℕ) < 1) ∧
    ((∀ id ∈ Finset.Icc 1 2,
      (preprocess_triples (fun k => (k : ZMod 101))
        ((fun id k => ((id + k : ℕ) : ZMod 101)) id)
        ((fun id _ => ((2 * id : ℕ) : ZMod 101)) id) 2 id 1).length = 1) ∧
    (∑ id in Finset.Icc 1 2,
        ((preprocess_triples (fun k => (k : ZMod 101))
          ((fun id k => ((id + k : ℕ) : ZMod 101)) id)
          ((fun id _ => ((2 * id : ℕ) : ZMod 101)) id) 2 id 1).getD 0
          (0, 0, 0)).2.2) =
      (∑ id in Finset.Icc 1 2,
        ((preprocess_triples (fun k => (k : ZMod 101))
          ((fun id k => ((id + k : ℕ) : ZMod 101)) id)
          ((fun id _ => ((2 * id : ℕ) : ZMod 101)) id) 2 id 1).getD 0
          (0, 0, 0)).1) *
      (∑ id in Finset.Icc 1 2,
        ((preprocess_triples (fun k => (k : ZMod 101))
          ((fun id k => ((id + k : ℕ) : ZMod 101)) id)
          ((fun id _ => ((2 * id : ℕ) : ZMod 101)) id) 2 id 1).getD 0
          (0, 0, 0)).2.1)) :=
  ⟨by norm_num, by norm_num,
    preprocess_triples_open_is_beaver (fun k => (k : ZMod 101))
      (fun id k => ((id + k : ℕ) : ZMod 101)) (fun id _ => ((2 * id : ℕ) : ZMod 101))
      2 1 (by norm_num) 0 (by norm_num)⟩

end C2

section C3

variable {F : Type} [Field F]

/-- **C3 (counterexample).** The claim "party 1 holds no Beaver triples
after `preprocess_triples`" is false on the code: with `n = 2` parties,
one triple, and any concrete RNG streams, the loop `for j in 1..n` runs
`j = 1` and its branch `j == my_id` fires for `my_id = 1`, so party 1's
`beaver_triples` list is nonempty. -/
theorem preprocess_triples_party1_nonempty :
    preprocess_triples (fun k => (k : ZMod 101)) (fun _ => 0) (fun _ => 0)
      2 1 1 ≠ [] := by
  decide

/-- **C3 (amended).** Under the default additive preprocessing scheme, for
every `n ≥ 2`, after `preprocess_triples` the party with id 1 holds exactly
`num` Beaver triples: the `for j in 1..n` loop assigns it one triple per
index (at its `j = 1` iteration), namely its slot of the seeded draws.  (It
is the party with id `n` that the loop never assigns; that party instead
pushes the correcting share after the loop.) -/
theorem preprocess_triples_party1_holds_triples
    (stream locA locB : ℕ → F) (n num : ℕ) (hn : 2 ≤ n) :
    (preprocess_triples stream locA locB n 1 num).length = num ∧
    ∀ i < num,
      (preprocess_triples stream locA locB n 1 num).getD i (0, 0, 0) =
        (tripleDraw stream n i 1 0, tripleDraw stream n i 1 1,
         tripleDraw stream n i 1 2) := by
  have hmap := preprocess_triples_eq_map_loop stream locA locB n 1 num
    (by omega) (by omega)
  rw [hmap]
  constructor
  · simp
  · intro i hi
    exact getD_map_range _ num i hi _

/-- Witness for the amended C3: `n = 2`, one triple, concrete streams over
`ZMod 101`. -/
theorem preprocess_triples_party1_holds_triples_witness :
    ((2 : ℕ) ≤ 2) ∧
    ((preprocess_triples (fun k => (k : ZMod 101)) (fun _ => 3) (fun _ => 4)
        2 1 1).length = 1 ∧
      ∀ i < 1,
        (preprocess_triples (fun k => (k : ZMod 101)) (fun _ => 3) (fun _ => 4)
          2 1 1).getD i (0, 0, 0) =
          (tripleDraw (fun k => (k : ZMod 101)) 2 i 1 0,
           tripleDraw (fun k => (k : ZMod 101)) 2 i 1 1,
           tripleDraw (fun k => (k : ZMod 101)) 2 i 1 2)) :=
  ⟨by norm_num,
    preprocess_triples_party1_holds_triples (fun k => (k : ZMod 101))
      (fun _ => 3) (fun _ => 4) 2 1 (by norm_num)⟩

end C3

section C4

variable {F : Type} [Field F]

lemma openShares_mul_left (n : ℕ) (c : F) (s : ℕ → F) :
    openShares n (fun p => c * s p) = c * openShares n s := by
  simp [openShares, Finset.mul_sum]

/-- **C4.** For every `n ≥ 2`, at every position `i` of `batch_inv`: if the
consumed Beaver triple is correct, the opened input `X = Σ xs` is nonzero,
and the opened mask product `q = Σ batch_mult(xs, rs)-shares` is nonzero
(the code divides by `q`, so the result is undefined when `q = 0`), then
the parties' output shares `q⁻¹ · ⟦r⟧` sum to `X⁻¹`. -/
theorem batch_inv_open_correct
    (n : ℕ) (hn : 2 ≤ n) (xs rs as bs cs : ℕ → ℕ → F) (i : ℕ)
    (hc : openShares n (fun p => cs p i) =
      openShares n (fun p => as p i) * openShares n (fun p => bs p i))
    (hx : openShares n (fun p => xs p i) ≠ 0)
    (hq : openShares n (fun p => batchMultOutShare n xs rs as bs cs p i) ≠ 0) :
    openShares n (fun id => batchInvOutShare n xs rs as bs cs id i) =
      (openShares n (fun p => xs p i))⁻¹ := by
  have hn1 : 1 ≤ n := by omega
  have hopen := open_batchMultOutShare n hn1 xs rs as bs cs i hc
  have hR : openShares n (fun p => rs p i) ≠ 0 := by
    intro h0
    exact hq (by rw [hopen, h0, mul_zero])
  unfold batchInvOutShare
  rw [openShares_mul_left]
  rw [hopen]
  rw [one_div, mul_inv_rev]
  field_simp

/-- Witness for C4: `n = 2` over `ZMod 101`, `X = 3`, `R = 1`, zero Beaver
triple (a valid triple since `0 = 0·0`); the opened `q` is `3` and the
output opens to `3⁻¹`. -/
theorem batch_inv_open_correct_witness :
    ((2 : ℕ) ≤ 2) ∧
    (openShares 2 (fun p => (fun (p i : ℕ) => (0 : ZMod 101)) p 0) =
      openShares 2 (fun p => (fun (p i : ℕ) => (0 : ZMod 101)) p 0) *
        openShares 2 (fun p => (fun (p i : ℕ) => (0 : ZMod 101)) p 0)) ∧
    (openShares 2
      (fun p => (fun (p i : ℕ) => if p = 1 then (2 : ZMod 101) else 1) p 0) ≠ 0) ∧
    (openShares 2
      (fun p => batchMultOutShare 2
        (fun (p i : ℕ) => if p = 1 then (2 : ZMod 101) else 1)
        (fun (p i : ℕ) => if p = 1 then 0 else 1)
        (fun (p i : ℕ) => 0) (fun (p i : ℕ) => 0) (fun (p i : ℕ) => 0) p 0) ≠ 0) ∧
    openShares 2
      (fun id => batchInvOutShare 2
        (fun (p i : ℕ) => if p = 1 then (2 : ZMod 101) else 1)
        (fun (p i : ℕ) => if p = 1 then 0 else 1)
        (fun (p i : ℕ) => 0) (fun (p i : ℕ) => 0) (fun (p i : ℕ) => 0) id 0) =
      (openShares 2
        (fun p => (fun (p i : ℕ) => if p = 1 then (2 : ZMod 101) else 1) p 0))⁻¹ :=
  ⟨by norm_num, by decide, by decide, by decide,
    batch_inv_open_correct 2 (by norm_num)
      (fun (p i : ℕ) => if p = 1 then (2 : ZMod 101) else 1)
      (fun (p i : ℕ) => if p = 1 then 0 else 1)
      (fun (p i : ℕ) => 0) (fun (p i : ℕ) => 0) (fun (p i : ℕ) => 0) 0
      (by decide) (by decide) (by decide)⟩

end C4

section ChunkLemmas

variable {α β : Type}

/-- The chunked-send loop transmits exactly the input pairs, in order:
the concatenation of the per-chunk `(handle, value)` pairs is the zip of
the full aligned arrays. -/
lemma chunkPairs_sentPairs (c : ℕ) (hc : 0 < c) :
    ∀ (len : ℕ) (hs : List α) (vs : List β), hs.length ≤ len →
      vs.length = hs.length →
      sentPairs (chunkPairs c hs vs) = hs.zip vs := by
  intro len
  induction len with
  | zero =>
    intro hs vs h1 _
    have : hs = [] := List.length_eq_zero.mp (by omega)
    subst this
    simp [chunkPairs, sentPairs]
  | succ len ih =>
    intro hs vs h1 h2
    match hs with
    | [] => simp [chunkPairs, sentPairs]
    | h :: t =>
      obtain ⟨c', rfl⟩ : ∃ c', c = c' + 1 := ⟨c - 1, by omega⟩
      rw [chunkPairs]
      simp only [sentPairs, List.map_cons, List.flatten_cons]
      have hdl : ((h :: t).drop (c' + 1)).length ≤ len := by
        simp only [List.length_drop, List.length_cons]
        simp only [List.length_cons] at h1
        omega
      have hvl : (vs.drop (c' + 1)).length = ((h :: t).drop (c' + 1)).length := by
        simp [List.length_drop, h2]
      have hrec := ih ((h :: t).drop (c' + 1)) (vs.drop (c' + 1)) hdl hvl
      simp only [sentPairs] at hrec
      rw [hrec]
      have htl : ((h :: t).take (c' + 1)).length = (vs.take (c' + 1)).length := by
        simp only [List.length_take, h2]
      conv_rhs =>
        rw [← List.take_append_drop (c' + 1) (h :: t),
          ← List.take_append_drop (c' + 1) vs]
      rw [List.zip_append htl]

/-- Direct form for the send paths: if the aligned arrays have equal
lengths, the chunked path at any positive threshold transmits the same
pairs, in the same order, as the single-send path. -/
lemma sendsWithThreshold_sentPairs (threshold : ℕ) (ht : 0 < threshold)
    (hs : List α) (vs : List β) (h2 : vs.length = hs.length) :
    sentPairs (sendsWithThreshold threshold hs vs) =
      sentPairs (singleSend hs vs) := by
  unfold sendsWithThreshold singleSend
  by_cases hlen : hs.length > threshold
  · rw [if_pos hlen]
    rw [chunkPairs_sentPairs threshold ht hs.length hs vs le_rfl h2]
    simp [sentPairs]
  · rw [if_neg hlen]

end ChunkLemmas

section C6

variable {F : Type} [Field F] {Gt : Type} [AddCommMonoid Gt]

/-- **C6.** The chunked sending path of `batch_output_wire` (threshold
256) transmits exactly the same `(handle, value)` pairs in the same
overall order as the single-send path and returns exactly the same
reconstructed outputs (the receive loop is shared); likewise
`batch_add_gt_elements_from_all_parties` with chunk threshold 64 is
equivalent to one giant send. -/
theorem batch_chunked_sends_refine_single_send
    (encodeF : F → String) (getWire : String → F) (recv : String → List F)
    (wire_handles : List String)
    (encodeGt : Gt → String) (inputs : List Gt) (identifiers : List String)
    (recvGt : String → List Gt)
    (hlen : inputs.length = identifiers.length) :
    (sentPairs (batch_output_wire_chunked_run encodeF getWire recv
        wire_handles).1 =
      sentPairs (batch_output_wire_single_run encodeF getWire recv
        wire_handles).1) ∧
    ((batch_output_wire_chunked_run encodeF getWire recv wire_handles).2 =
      (batch_output_wire_single_run encodeF getWire recv wire_handles).2) ∧
    (sentPairs (batch_add_gt_chunked_run encodeGt inputs identifiers
        recvGt).1 =
      sentPairs (batch_add_gt_single_run encodeGt inputs identifiers
        recvGt).1) ∧
    ((batch_add_gt_chunked_run encodeGt inputs identifiers recvGt).2 =
      (batch_add_gt_single_run encodeGt inputs identifiers recvGt).2) := by
  refine ⟨?_, rfl, ?_, rfl⟩
  · exact sendsWithThreshold_sentPairs 256 (by norm_num) wire_handles
      (wire_handles.map (fun h => encodeF (getWire h))) (by simp)
  · exact sendsWithThreshold_sentPairs 64 (by norm_num) identifiers
      (inputs.map encodeGt) (by simp [hlen])

/-- Witness for C6: 300 handles (forcing the chunked branch on the scalar
path) over `ZMod 101`, and 70 `Gt` items (forcing the chunked branch at
threshold 64). -/
theorem batch_chunked_sends_refine_single_send_witness :
    ((List.replicate 70 (0 : ZMod 101)).length =
      (List.replicate 70 "gt").length) ∧
    (sentPairs (batch_output_wire_chunked_run (fun _ => "f")
        (fun _ => (1 : ZMod 101)) (fun _ => [])
        (List.replicate 300 "h")).1 =
      sentPairs (batch_output_wire_single_run (fun _ => "f")
        (fun _ => (1 : ZMod 101)) (fun _ => [])
        (List.replicate 300 "h")).1) := by
  have h := batch_chunked_sends_refine_single_send
    (fun _ => "f") (fun _ => (1 : ZMod 101)) (fun _ => [])
    (List.replicate 300 "h")
    (fun _ => "gt") (List.replicate 70 (0 : ZMod 101))
    (List.replicate 70 "gt") (fun _ => [])
    (by simp)
  exact ⟨by simp, h.1⟩

end C6

section C7

variable {F : Type} [Field F] [DecidableEq F]

lemma batch_ran_64_succ (sqrtFn : F → F) (aShares opened : List F) (k : ℕ) :
    batch_ran_64 sqrtFn aShares opened (k + 1) =
      (batch_ran_64 sqrtFn aShares opened k).bind (fun l =>
        (opened.get? k).bind (fun A =>
          if A = 0 then none
          else (aShares.get? k).map
            (fun a => l ++ [a / sqrtFn^[LOG_PERM_SIZE] A]))) := rfl

lemma batch_ran_64_spec (sqrtFn : F → F) (aShares opened : List F) :
    ∀ k : ℕ, k ≤ opened.length → k ≤ aShares.length →
      ((batch_ran_64 sqrtFn aShares opened k = none ↔
        ∃ i < k, opened.getD i 0 = 0) ∧
      ∀ out, batch_ran_64 sqrtFn aShares opened k = some out →
        out.length = k ∧ ∀ i < k,
          out.getD i 0 =
            aShares.getD i 0 / sqrtFn^[LOG_PERM_SIZE] (opened.getD i 0)) := by
  intro k
  induction k with
  | zero =>
    intro _ _
    constructor
    · simp [batch_ran_64]
    · intro out hout
      simp only [batch_ran_64, Option.some.injEq] at hout
      subst hout
      exact ⟨rfl, by omega⟩
  | succ k ih =>
    intro hk1 hk2
    obtain ⟨ihiff, ihout⟩ := ih (by omega) (by omega)
    have hAk : opened.get? k = some (opened.getD k 0) := by
      rw [List.get?_eq_getElem?, List.getElem?_eq_getElem (by omega)]
      rw [List.getD_eq_getElem?_getD, List.getElem?_eq_getElem (by omega)]
      rfl
    have hak : aShares.get? k = some (aShares.getD k 0) := by
      rw [List.get?_eq_getElem?, List.getElem?_eq_getElem (by omega)]
      rw [List.getD_eq_getElem?_getD, List.getElem?_eq_getElem (by omega)]
      rfl
    cases hB : batch_ran_64 sqrtFn aShares opened k with
    | none =>
      have hz : ∃ i < k, opened.getD i 0 = 0 := ihiff.mp hB
      constructor
      · constructor
        · intro _
          obtain ⟨i, hik, hiz⟩ := hz
          exact ⟨i, by omega, hiz⟩
        · intro _
          rw [batch_ran_64_succ, hB]
          rfl
      · intro out hout
        rw [batch_ran_64_succ, hB] at hout
        simp at hout
    | some l =>
      have hnz : ¬ ∃ i < k, opened.getD i 0 = 0 := fun h =>
        Option.some_ne_none l (hB ▸ ihiff.mpr h)
      obtain ⟨hlen, hvals⟩ := ihout l hB
      by_cases hz : opened.getD k 0 = 0
      · constructor
        · constructor
          · intro _
            exact ⟨k, by omega, hz⟩
          · intro _
            rw [batch_ran_64_succ, hB, Option.some_bind, hAk, Option.some_bind,
              if_pos hz]
        · intro out hout
          rw [batch_ran_64_succ, hB, Option.some_bind, hAk, Option.some_bind,
            if_pos hz] at hout
          simp at hout
      · have hstep : batch_ran_64 sqrtFn aShares opened (k + 1) =
            some (l ++ [aShares.getD k 0 /
              sqrtFn^[LOG_PERM_SIZE] (opened.getD k 0)]) := by
          rw [batch_ran_64_succ, hB, Option.some_bind, hAk, Option.some_bind,
            if_neg hz, hak, Option.map_some']
        constructor
        · constructor
          · intro h
            rw [hstep] at h
            exact absurd h (Option.some_ne_none _)
          · intro ⟨i, hik, hiz⟩
            rcases Nat.lt_succ_iff_lt_or_eq.mp hik with h | h
            · exact absurd ⟨i, h, hiz⟩ hnz
            · exact absurd (h ▸ hiz) hz
        · intro out hout
          rw [hstep] at hout
          injection hout with hout
          subst hout
          constructor
          · simp [hlen]
          · intro i hik
            rcases Nat.lt_succ_iff_lt_or_eq.mp hik with h | h
            · rw [List.getD_append _ _ _ _ (by omega)]
              exact hvals i h
            · subst h
              rw [List.getD_append_right _ _ _ _ (by omega)]
              simp [hlen]

/-- **C7.** With sufficient preprocessed material (the consumed random
shares `aShares` and the opened values `opened` both have length `len`),
`batch_ran_64` aborts (panics, modelled as `none`) if and only if at least
one opened value `A_i` is zero; otherwise it returns exactly `len` shares,
the `i`-th being the local share `a_i` divided by the public value `ℓ_i`
obtained from `A_i` by `LOG_PERM_SIZE` repeated square roots. -/
theorem batch_ran_64_abort_iff_zero_opened
    (sqrtFn : F → F) (aShares opened : List F) (len : ℕ)
    (h1 : opened.length = len) (h2 : aShares.length = len) :
    (batch_ran_64 sqrtFn aShares opened len = none ↔
      ∃ i < len, opened.getD i 0 = 0) ∧
    ∀ out, batch_ran_64 sqrtFn aShares opened len = some out →
      out.length = len ∧ ∀ i < len,
        out.getD i 0 =
          aShares.getD i 0 / sqrtFn^[LOG_PERM_SIZE] (opened.getD i 0) :=
  batch_ran_64_spec sqrtFn aShares opened len (by omega) (by omega)

/-- Witness for C7: two wires over `ZMod 101`, nonzero opened values,
with the square-root oracle instantiated to squaring. -/
theorem batch_ran_64_abort_iff_zero_opened_witness :
    (([(2 : ZMod 101), 3] : List (ZMod 101)).length = 2) ∧
    (([(5 : ZMod 101), 7] : List (ZMod 101)).length = 2) ∧
    ((batch_ran_64 (fun x => x * x) [(5 : ZMod 101), 7] [2, 3] 2 = none ↔
      ∃ i < 2, ([(2 : ZMod 101), 3] : List (ZMod 101)).getD i 0 = 0) ∧
    ∀ out, batch_ran_64 (fun x => x * x) [(5 : ZMod 101), 7] [2, 3] 2 =
        some out →
      out.length = 2 ∧ ∀ i < 2,
        out.getD i 0 =
          ([(5 : ZMod 101), 7] : List (ZMod 101)).getD i 0 /
            (fun x => x * x)^[LOG_PERM_SIZE]
              (([(2 : ZMod 101), 3] : List (ZMod 101)).getD i 0)) :=
  ⟨by decide, by decide,
    batch_ran_64_abort_iff_zero_opened (fun x => x * x)
      [(5 : ZMod 101), 7] [2, 3] 2 (by decide) (by decide)⟩

end C7

section EvStepLemmas

variable {F : Type} [Field F]

lemma batch_beaver_loop_spec (base : ℕ) :
    ∀ (rem i : ℕ) (s : EvaluatorState F) (r : List String × EvaluatorState F),
      batch_beaver_loop s base i rem = some r →
      r.2.beaver_triples = s.beaver_triples ∧
      r.2.rand_sharings = s.rand_sharings ∧
      r.2.beaver_counter = s.beaver_counter ∧
      r.2.rand_counter = s.rand_counter ∧
      (0 < rem → base + i + rem ≤ s.beaver_triples.length) := by
  intro rem
  induction rem with
  | zero =>
    intro i s r h
    simp only [batch_beaver_loop, Option.some.injEq] at h
    rw [← h]
    exact ⟨rfl, rfl, rfl, rfl, by omega⟩
  | succ rem ih =>
    intro i s r h
    simp only [batch_beaver_loop, fresh_label, insert_wire,
      Option.bind_eq_some, Option.map_eq_some'] at h
    rcases h with ⟨t, ht, r1, hrec, rfl⟩
    obtain ⟨h1, h2, h3, h4, h5⟩ := ih (i + 1) _ r1 hrec
    have hlt : base + i < s.beaver_triples.length :=
      (List.get?_eq_some.mp ht).1
    simp only at h1 h2 h3 h4 h5 ⊢
    refine ⟨h1, h2, h3, h4, fun _ => ?_⟩
    by_cases hrem : 0 < rem
    · have := h5 hrem
      simp only at this
      omega
    · omega

lemma evStep_counters (s s' : EvaluatorState F) (op : EvOp F) (hs : List String)
    (h : evStep s op = some (hs, s')) :
    s'.beaver_triples = s.beaver_triples ∧
    s'.rand_sharings = s.rand_sharings ∧
    (s.beaver_counter ≤ s.beaver_triples.length →
      s'.beaver_counter ≤ s.beaver_triples.length) ∧
    (s.rand_counter ≤ s.rand_sharings.length →
      s'.rand_counter ≤ s.rand_sharings.length) := by
  cases op with
  | ran =>
    simp only [evStep, ran_op, fresh_label, insert_wire,
      Option.map_eq_some', Prod.mk.injEq] at h
    rcases h with ⟨r, ⟨v, hv, rfl⟩, rfl, rfl⟩
    have hlt := (List.get?_eq_some.mp hv).1
    refine ⟨rfl, rfl, fun hb => hb, fun _ => ?_⟩
    show s.rand_counter + 1 ≤ s.rand_sharings.length
    omega
  | fixedWire v =>
    simp only [evStep, fixed_wire_op, fresh_label, insert_wire,
      Option.some.injEq, Prod.mk.injEq] at h
    rcases h with ⟨rfl, rfl⟩
    exact ⟨rfl, rfl, fun hb => hb, fun hr => hr⟩
  | add hx hy =>
    simp only [evStep, add_op, fresh_label, insert_wire,
      Option.map_eq_some', Option.bind_eq_some, Prod.mk.injEq] at h
    rcases h with ⟨r, ⟨x, hx', y, hy', rfl⟩, rfl, rfl⟩
    exact ⟨rfl, rfl, fun hb => hb, fun hr => hr⟩
  | sub hx hy =>
    simp only [evStep, sub_op, fresh_label, insert_wire,
      Option.map_eq_some', Option.bind_eq_some, Prod.mk.injEq] at h
    rcases h with ⟨r, ⟨x, hx', y, hy', rfl⟩, rfl, rfl⟩
    exact ⟨rfl, rfl, fun hb => hb, fun hr => hr⟩
  | scale hx k =>
    simp only [evStep, scale_op, fresh_label, insert_wire,
      Option.map_eq_some', Prod.mk.injEq] at h
    rcases h with ⟨r, ⟨x, hx', rfl⟩, rfl, rfl⟩
    exact ⟨rfl, rfl, fun hb => hb, fun hr => hr⟩
  | clearAdd hx v =>
    simp only [evStep, clear_add_op, fresh_label, insert_wire,
      Option.map_eq_some', Prod.mk.injEq] at h
    rcases h with ⟨r, ⟨x, hx', rfl⟩, rfl, rfl⟩
    exact ⟨rfl, rfl, fun hb => hb, fun hr => hr⟩
  | outputWire hx =>
    simp only [evStep, output_wire_op, Option.map_eq_some', Prod.mk.injEq] at h
    rcases h with ⟨r, ⟨x, hx', rfl⟩, rfl, rfl⟩
    exact ⟨rfl, rfl, fun hb => hb, fun hr => hr⟩
  | beaver =>
    simp only [evStep, beaver_op, fresh_label, insert_wire,
      Option.map_eq_some', Prod.mk.injEq] at h
    rcases h with ⟨r, ⟨t, ht, rfl⟩, rfl, rfl⟩
    have hlt := (List.get?_eq_some.mp ht).1
    refine ⟨rfl, rfl, fun _ => ?_, fun hr => hr⟩
    show s.beaver_counter + 1 ≤ s.beaver_triples.length
    omega
  | batchBeaver num =>
    simp only [evStep, batch_beaver_op, Option.map_eq_some', Prod.mk.injEq] at h
    rcases h with ⟨r, hloop, rfl, rfl⟩
    obtain ⟨h1, h2, h3, h4, h5⟩ :=
      batch_beaver_loop_spec s.beaver_counter num 0 s r hloop
    refine ⟨?_, ?_, fun hb => ?_, fun hr => ?_⟩
    · show r.2.beaver_triples = s.beaver_triples
      exact h1
    · show r.2.rand_sharings = s.rand_sharings
      exact h2
    · show r.2.beaver_counter + num ≤ s.beaver_triples.length
      rw [h3]
      by_cases hnum : 0 < num
      · have := h5 hnum
        omega
      · omega
    · show r.2.rand_counter ≤ s.rand_sharings.length
      rw [h4]
      exact hr
  | mult hx hy =>
    simp only [evStep, mult_op, beaver_op, add_op, output_wire_op,
      fresh_label, insert_wire, Option.map_eq_some', Option.bind_eq_some,
      Prod.mk.injEq] at h
    rcases h with ⟨r, ⟨r0, ⟨t, ht, rfl⟩, a, ha, b, hb, c, hc,
      rxa, ⟨x1, hx1, y1, hy1, rfl⟩, ryb, ⟨x2, hx2, y2, hy2, rfl⟩,
      rd, ⟨xd, hxd, rfl⟩, re, ⟨xe, hxe, rfl⟩, rfl⟩, rfl, rfl⟩
    have hlt := (List.get?_eq_some.mp ht).1
    refine ⟨rfl, rfl, fun _ => ?_, fun hr => hr⟩
    show s.beaver_counter + 1 ≤ s.beaver_triples.length
    omega
  | ibeConstOne =>
    simp only [evStep, ibe_const_one_op, fresh_label, insert_wire,
      Option.some.injEq, Prod.mk.injEq] at h
    rcases h with ⟨rfl, rfl⟩
    exact ⟨rfl, rfl, fun hb => hb, fun hr => hr⟩

lemma evRun_counters (ops : List (EvOp F)) :
    ∀ (s s' : EvaluatorState F) (hs : List String),
      evRun s ops = some (hs, s') →
      s.beaver_counter ≤ s.beaver_triples.length →
      s.rand_counter ≤ s.rand_sharings.length →
      s'.beaver_triples = s.beaver_triples ∧
      s'.rand_sharings = s.rand_sharings ∧
      s'.beaver_counter ≤ s.beaver_triples.length ∧
      s'.rand_counter ≤ s.rand_sharings.length := by
  induction ops with
  | nil =>
    intro s s' hs h hb hr
    simp only [evRun, Option.some.injEq, Prod.mk.injEq] at h
    rcases h with ⟨-, rfl⟩
    exact ⟨rfl, rfl, hb, hr⟩
  | cons op ops ih =>
    intro s s' hs h hb hr
    simp only [evRun, Option.bind_eq_some, Option.map_eq_some',
      Prod.mk.injEq] at h
    rcases h with ⟨r1, hstep, r2, hrun, -, rfl⟩
    obtain ⟨e1, e2, hb1, hr1⟩ :=
      evStep_counters s r1.2 op r1.1 (by rw [Prod.mk.eta]; exact hstep)
    obtain ⟨f1, f2, hb2, hr2⟩ := ih r1.2 r2.2 r2.1
      (by rw [Prod.mk.eta]; exact hrun)
      (by rw [e1]; exact hb1 hb) (by rw [e2]; exact hr1 hr)
    rw [e1] at f1 hb2
    rw [e2] at f2 hr2
    exact ⟨f1, f2, hb2, hr2⟩

end EvStepLemmas

section C8

variable {F : Type} [Field F]

/-- **C8.** In every evaluator state reachable from `new()` by a
successful sequence of operations (out-of-bounds indexing modelled as
failure), `beaver_counter ≤ NUM_BEAVER_TRIPLES` and
`rand_counter ≤ NUM_RAND_SHARINGS`: `ran`, `beaver` and `batch_beaver`
index the preprocessed lists before advancing the counter, so an
exhausted operation fails without pushing a counter past its bound. -/
theorem counters_never_exceed_preprocessing
    (s0 s' : EvaluatorState F) (ops : List (EvOp F)) (hs : List String)
    (hb0 : s0.beaver_counter = 0) (hr0 : s0.rand_counter = 0)
    (hbl : s0.beaver_triples.length = NUM_BEAVER_TRIPLES)
    (hrl : s0.rand_sharings.length = NUM_RAND_SHARINGS)
    (hrun : evRun s0 ops = some (hs, s')) :
    s'.beaver_counter ≤ NUM_BEAVER_TRIPLES ∧
    s'.rand_counter ≤ NUM_RAND_SHARINGS := by
  obtain ⟨-, -, hb, hr⟩ := evRun_counters ops s0 s' hs hrun
    (by omega) (by omega)
  omega

/-- Witness for C8: from a freshly preprocessed state over `ZMod 101`
(party 2, zero-filled preprocessing, zero oracle), the single call `ran`
succeeds and the resulting counters respect both bounds. -/
theorem counters_never_exceed_preprocessing_witness :
    ((0 : ℕ) = 0) ∧
    ((List.replicate NUM_BEAVER_TRIPLES
        ((0 : ZMod 101), (0 : ZMod 101), (0 : ZMod 101))).length =
      NUM_BEAVER_TRIPLES) ∧
    ((List.replicate NUM_RAND_SHARINGS (0 : ZMod 101)).length =
      NUM_RAND_SHARINGS) ∧
    (evRun
      (⟨2, List.replicate NUM_BEAVER_TRIPLES (0, 0, 0),
        List.replicate NUM_RAND_SHARINGS 0, [], 0, 0, 0, fun _ => 0, 0⟩ :
        EvaluatorState (ZMod 101))
      [EvOp.ran] =
      some ([wireLabel 1],
        ⟨2, List.replicate NUM_BEAVER_TRIPLES (0, 0, 0),
          List.replicate NUM_RAND_SHARINGS 0, [(wireLabel 1, 0)], 1, 0, 1,
          fun _ => 0, 0⟩)) ∧
    ((⟨2, List.replicate NUM_BEAVER_TRIPLES (0, 0, 0),
        List.replicate NUM_RAND_SHARINGS 0, [(wireLabel 1, 0)], 1, 0, 1,
        fun _ => 0, 0⟩ :
        EvaluatorState (ZMod 101)).beaver_counter ≤ NUM_BEAVER_TRIPLES ∧
      (⟨2, List.replicate NUM_BEAVER_TRIPLES (0, 0, 0),
        List.replicate NUM_RAND_SHARINGS 0, [(wireLabel 1, 0)], 1, 0, 1,
        fun _ => 0, 0⟩ :
        EvaluatorState (ZMod 101)).rand_counter ≤ NUM_RAND_SHARINGS) :=
  ⟨rfl, by simp, by simp, rfl,
    counters_never_exceed_preprocessing
      (⟨2, List.replicate NUM_BEAVER_TRIPLES (0, 0, 0),
        List.replicate NUM_RAND_SHARINGS 0, [], 0, 0, 0, fun _ => 0, 0⟩ :
        EvaluatorState (ZMod 101))
      (⟨2, List.replicate NUM_BEAVER_TRIPLES (0, 0, 0),
        List.replicate NUM_RAND_SHARINGS 0, [(wireLabel 1, 0)], 1, 0, 1,
        fun _ => 0, 0⟩ :
        EvaluatorState (ZMod 101))
      [EvOp.ran] [wireLabel 1] rfl rfl (by simp) (by simp) rfl⟩

end C8

section AlignLemmas

variable {F : Type} [Field F]

lemma optionRel_bind {α β γ δ : Type} {R : α → β → Prop} {S : γ → δ → Prop}
    {o1 : Option α} {o2 : Option β} {f : α → Option γ} {g : β → Option δ}
    (h : optionRel R o1 o2) (hf : ∀ a b, R a b → optionRel S (f a) (g b)) :
    optionRel S (o1.bind f) (o2.bind g) := by
  cases o1 with
  | none =>
    cases o2 with
    | none => exact trivial
    | some b => exact h.elim
  | some a =>
    cases o2 with
    | none => exact h.elim
    | some b => exact hf a b h

lemma optionRel_map {α β γ δ : Type} {R : α → β → Prop} {S : γ → δ → Prop}
    {o1 : Option α} {o2 : Option β} {f : α → γ} {g : β → δ}
    (h : optionRel R o1 o2) (hf : ∀ a b, R a b → S (f a) (g b)) :
    optionRel S (o1.map f) (o2.map g) := by
  cases o1 with
  | none =>
    cases o2 with
    | none => exact trivial
    | some b => exact h.elim
  | some a =>
    cases o2 with
    | none => exact h.elim
    | some b => exact hf a b h

lemma find?_fst_rel :
    ∀ (l1 l2 : List (String × F))
      (_ : l1.map Prod.fst = l2.map Prod.fst) (h : String),
      optionRel (fun _ _ => True)
        (l1.find? (fun p => p.1 = h)) (l2.find? (fun p => p.1 = h)) := by
  intro l1
  induction l1 with
  | nil =>
    intro l2 hk _
    have : l2 = [] := List.map_eq_nil.mp hk.symm
    subst this
    exact trivial
  | cons p t ih =>
    intro l2 hk h
    cases l2 with
    | nil => simp at hk
    | cons q t2 =>
      simp only [List.map_cons, List.cons.injEq] at hk
      obtain ⟨hpq, ht⟩ := hk
      by_cases hph : p.1 = h
      · rw [List.find?_cons_of_pos _ (by simp [hph]),
          List.find?_cons_of_pos _ (by simp [← hpq, hph])]
        exact trivial
      · rw [List.find?_cons_of_neg _ (by simp [hph]),
          List.find?_cons_of_neg _ (by simp [← hpq, hph])]
        exact ih t2 ht h

lemma get_wire_rel (s1 s2 : EvaluatorState F)
    (hk : s1.wire_shares.map Prod.fst = s2.wire_shares.map Prod.fst)
    (h : String) :
    optionRel (fun _ _ => True) (get_wire s1 h) (get_wire s2 h) :=
  optionRel_map (find?_fst_rel _ _ hk h) (fun _ _ _ => trivial)

lemma get?_length_rel {α : Type} (l1 l2 : List α) (hl : l1.length = l2.length)
    (n : ℕ) :
    optionRel (fun _ _ => True) (l1.get? n) (l2.get? n) := by
  by_cases hn : n < l1.length
  · rw [List.get?_eq_get hn, List.get?_eq_get (by omega)]
    exact trivial
  · rw [List.get?_eq_none.mpr (by omega), List.get?_eq_none.mpr (by omega)]
    exact trivial

lemma ran_op_rel (s1 s2 : EvaluatorState F) (ha : alignedStates s1 s2) :
    optionRel (fun r1 r2 => r1.1 = r2.1 ∧ alignedStates r1.2 r2.2)
      (ran_op s1) (ran_op s2) := by
  obtain ⟨hg, hw, hbc, hrc, hoc, hbl, hrl⟩ := ha
  simp only [ran_op, fresh_label, insert_wire]
  rw [hg, hrc]
  refine optionRel_map (get?_length_rel _ _ hrl _) ?_
  intro v1 v2 _
  exact ⟨rfl, rfl, by simp [hw], hbc, rfl, hoc, hbl, hrl⟩

lemma fixed_wire_op_rel (s1 s2 : EvaluatorState F) (v : F)
    (ha : alignedStates s1 s2) :
    (fixed_wire_op s1 v).1 = (fixed_wire_op s2 v).1 ∧
    alignedStates (fixed_wire_op s1 v).2 (fixed_wire_op s2 v).2 := by
  obtain ⟨hg, hw, hbc, hrc, hoc, hbl, hrl⟩ := ha
  simp only [fixed_wire_op, fresh_label, insert_wire]
  rw [hg]
  exact ⟨rfl, rfl, by simp [hw], hbc, hrc, hoc, hbl, hrl⟩

lemma ibe_const_one_op_rel (s1 s2 : EvaluatorState F)
    (ha : alignedStates s1 s2) :
    (ibe_const_one_op s1).1 = (ibe_const_one_op s2).1 ∧
    alignedStates (ibe_const_one_op s1).2 (ibe_const_one_op s2).2 := by
  obtain ⟨hg, hw, hbc, hrc, hoc, hbl, hrl⟩ := ha
  simp only [ibe_const_one_op, fresh_label, insert_wire]
  rw [hg]
  exact ⟨rfl, rfl, by simp [hw], hbc, hrc, hoc, hbl, hrl⟩

lemma add_op_rel (s1 s2 : EvaluatorState F) (hx hy : String)
    (ha : alignedStates s1 s2) :
    optionRel (fun r1 r2 => r1.1 = r2.1 ∧ alignedStates r1.2 r2.2)
      (add_op s1 hx hy) (add_op s2 hx hy) := by
  obtain ⟨hg, hw, hbc, hrc, hoc, hbl, hrl⟩ := ha
  simp only [add_op, fresh_label, insert_wire]
  rw [hg]
  refine optionRel_bind (get_wire_rel _ _ hw hx) ?_
  intro x1 x2 _
  refine optionRel_map (get_wire_rel _ _ hw hy) ?_
  intro y1 y2 _
  exact ⟨rfl, rfl, by simp [hw], hbc, hrc, hoc, hbl, hrl⟩

lemma sub_op_rel (s1 s2 : EvaluatorState F) (hx hy : String)
    (ha : alignedStates s1 s2) :
    optionRel (fun r1 r2 => r1.1 = r2.1 ∧ alignedStates r1.2 r2.2)
      (sub_op s1 hx hy) (sub_op s2 hx hy) := by
  obtain ⟨hg, hw, hbc, hrc, hoc, hbl, hrl⟩ := ha
  simp only [sub_op, fresh_label, insert_wire]
  rw [hg]
  refine optionRel_bind (get_wire_rel _ _ hw hx) ?_
  intro x1 x2 _
  refine optionRel_map (get_wire_rel _ _ hw hy) ?_
  intro y1 y2 _
  exact ⟨rfl, rfl, by simp [hw], hbc, hrc, hoc, hbl, hrl⟩

lemma scale_op_rel (s1 s2 : EvaluatorState F) (hx : String) (k : F)
    (ha : alignedStates s1 s2) :
    optionRel (fun r1 r2 => r1.1 = r2.1 ∧ alignedStates r1.2 r2.2)
      (scale_op s1 hx k) (scale_op s2 hx k) := by
  obtain ⟨hg, hw, hbc, hrc, hoc, hbl, hrl⟩ := ha
  simp only [scale_op, fresh_label, insert_wire]
  rw [hg]
  refine optionRel_map (get_wire_rel _ _ hw hx) ?_
  intro x1 x2 _
  exact ⟨rfl, rfl, by simp [hw], hbc, hrc, hoc, hbl, hrl⟩

lemma clear_add_op_rel (s1 s2 : EvaluatorState F) (hx : String) (v : F)
    (ha : alignedStates s1 s2) :
    optionRel (fun r1 r2 => r1.1 = r2.1 ∧ alignedStates r1.2 r2.2)
      (clear_add_op s1 hx v) (clear_add_op s2 hx v) := by
  obtain ⟨hg, hw, hbc, hrc, hoc, hbl, hrl⟩ := ha
  simp only [clear_add_op, fresh_label, insert_wire]
  rw [hg]
  refine optionRel_map (get_wire_rel _ _ hw hx) ?_
  intro x1 x2 _
  exact ⟨rfl, rfl, by simp [hw], hbc, hrc, hoc, hbl, hrl⟩

lemma output_wire_op_rel (s1 s2 : EvaluatorState F)
    (ha : alignedStates s1 s2) (h : String) :
    optionRel (fun r1 r2 => alignedStates r1.2 r2.2)
      (output_wire_op s1 h) (output_wire_op s2 h) := by
  obtain ⟨hg, hw, hbc, hrc, hoc, hbl, hrl⟩ := ha
  simp only [output_wire_op]
  refine optionRel_map (get_wire_rel _ _ hw h) ?_
  intro x1 x2 _
  exact ⟨hg, hw, hbc, hrc, by rw [hoc], hbl, hrl⟩

lemma beaver_op_rel (s1 s2 : EvaluatorState F) (ha : alignedStates s1 s2) :
    optionRel (fun r1 r2 =>
        r1.1 = r2.1 ∧ r1.2.1 = r2.2.1 ∧ r1.2.2.1 = r2.2.2.1 ∧
        alignedStates r1.2.2.2 r2.2.2.2)
      (beaver_op s1) (beaver_op s2) := by
  obtain ⟨hg, hw, hbc, hrc, hoc, hbl, hrl⟩ := ha
  simp only [beaver_op, fresh_label, insert_wire]
  rw [hg, hbc]
  refine optionRel_map (get?_length_rel _ _ hbl _) ?_
  intro t1 t2 _
  exact ⟨rfl, rfl, rfl, rfl, by simp [hw], rfl, hrc, hoc, hbl, hrl⟩

lemma batch_beaver_loop_rel (base : ℕ) :
    ∀ (rem i : ℕ) (s1 s2 : EvaluatorState F), alignedStates s1 s2 →
      optionRel (fun r1 r2 => r1.1 = r2.1 ∧ alignedStates r1.2 r2.2)
        (batch_beaver_loop s1 base i rem) (batch_beaver_loop s2 base i rem) := by
  intro rem
  induction rem with
  | zero =>
    intro i s1 s2 ha
    exact ⟨rfl, ha⟩
  | succ rem ih =>
    intro i s1 s2 ha
    obtain ⟨hg, hw, hbc, hrc, hoc, hbl, hrl⟩ := ha
    simp only [batch_beaver_loop, fresh_label, insert_wire]
    rw [hg]
    refine optionRel_bind (get?_length_rel _ _ hbl _) ?_
    intro t1 t2 _
    refine optionRel_map
      (ih (i + 1) _ _ ⟨rfl, by simp [hw], hbc, hrc, hoc, hbl, hrl⟩) ?_
    intro r1 r2 hr
    exact ⟨by rw [hr.1], hr.2⟩

lemma batch_beaver_op_rel (s1 s2 : EvaluatorState F) (num : ℕ)
    (ha : alignedStates s1 s2) :
    optionRel (fun r1 r2 => r1.1 = r2.1 ∧ alignedStates r1.2 r2.2)
      (batch_beaver_op s1 num) (batch_beaver_op s2 num) := by
  have hbc := ha.2.2.1
  simp only [batch_beaver_op]
  rw [hbc]
  refine optionRel_map (batch_beaver_loop_rel _ num 0 s1 s2 ha) ?_
  intro r1 r2 hr
  obtain ⟨hh, hg', hw', hbc', hrc', hoc', hbl', hrl'⟩ := hr
  exact ⟨hh, hg', by simp [hw'], by rw [hbc'], hrc', hoc', hbl', hrl'⟩

lemma mult_op_rel (s1 s2 : EvaluatorState F) (hx hy : String)
    (ha : alignedStates s1 s2) :
    optionRel (fun r1 r2 => r1.1 = r2.1 ∧ alignedStates r1.2 r2.2)
      (mult_op s1 hx hy) (mult_op s2 hx hy) := by
  simp only [mult_op]
  refine optionRel_bind (beaver_op_rel s1 s2 ha) ?_
  intro r0a r0b hr0
  obtain ⟨ha1, hb1, hc1, st1⟩ := r0a
  obtain ⟨ha2, hb2, hc2, st2⟩ := r0b
  obtain ⟨e1, e2, e3, ha4⟩ := hr0
  simp only at e1 e2 e3 ha4 ⊢
  subst e1
  subst e2
  subst e3
  obtain ⟨hg4, hw4, hbc4, hrc4, hoc4, hbl4, hrl4⟩ := ha4
  refine optionRel_bind (get_wire_rel _ _ hw4 _) ?_
  intro a1 a2 _
  refine optionRel_bind (get_wire_rel _ _ hw4 _) ?_
  intro b1 b2 _
  refine optionRel_bind (get_wire_rel _ _ hw4 _) ?_
  intro c1 c2 _
  refine optionRel_bind
    (add_op_rel _ _ _ _ ⟨hg4, hw4, hbc4, hrc4, hoc4, hbl4, hrl4⟩) ?_
  intro rxa1 rxa2 hrxa
  obtain ⟨hxa_eq, haxa⟩ := hrxa
  refine optionRel_bind (add_op_rel _ _ _ _ haxa) ?_
  intro ryb1 ryb2 hryb
  obtain ⟨hyb_eq, hayb⟩ := hryb
  rw [hxa_eq]
  refine optionRel_bind (output_wire_op_rel _ _ hayb _) ?_
  intro rd1 rd2 hrd
  rw [hyb_eq]
  refine optionRel_map (output_wire_op_rel _ _ hrd _) ?_
  intro re1 re2 hre
  obtain ⟨hge, hwe, hbce, hrce, hoce, hble, hrle⟩ := hre
  simp only [fresh_label, insert_wire]
  rw [hge]
  exact ⟨rfl, rfl, by simp [hwe], hbce, hrce, hoce, hble, hrle⟩

lemma evStep_rel (s1 s2 : EvaluatorState F) (op : EvOp F)
    (ha : alignedStates s1 s2) :
    optionRel (fun r1 r2 => r1.1 = r2.1 ∧ alignedStates r1.2 r2.2)
      (evStep s1 op) (evStep s2 op) := by
  cases op with
  | ran =>
    simp only [evStep]
    refine optionRel_map (ran_op_rel s1 s2 ha) ?_
    intro r1 r2 hr
    exact ⟨by rw [hr.1], hr.2⟩
  | fixedWire v =>
    obtain ⟨hh, ha'⟩ := fixed_wire_op_rel s1 s2 v ha
    exact ⟨by rw [hh], ha'⟩
  | add hx hy =>
    simp only [evStep]
    refine optionRel_map (add_op_rel s1 s2 hx hy ha) ?_
    intro r1 r2 hr
    exact ⟨by rw [hr.1], hr.2⟩
  | sub hx hy =>
    simp only [evStep]
    refine optionRel_map (sub_op_rel s1 s2 hx hy ha) ?_
    intro r1 r2 hr
    exact ⟨by rw [hr.1], hr.2⟩
  | scale hx k =>
    simp only [evStep]
    refine optionRel_map (scale_op_rel s1 s2 hx k ha) ?_
    intro r1 r2 hr
    exact ⟨by rw [hr.1], hr.2⟩
  | clearAdd hx v =>
    simp only [evStep]
    refine optionRel_map (clear_add_op_rel s1 s2 hx v ha) ?_
    intro r1 r2 hr
    exact ⟨by rw [hr.1], hr.2⟩
  | outputWire hx =>
    simp only [evStep]
    refine optionRel_map (output_wire_op_rel s1 s2 ha hx) ?_
    intro r1 r2 hr
    exact ⟨rfl, hr⟩
  | beaver =>
    simp only [evStep]
    refine optionRel_map (beaver_op_rel s1 s2 ha) ?_
    intro r1 r2 hr
    exact ⟨by rw [hr.1, hr.2.1, hr.2.2.1], hr.2.2.2⟩
  | batchBeaver num =>
    simp only [evStep]
    exact batch_beaver_op_rel s1 s2 num ha
  | mult hx hy =>
    simp only [evStep]
    refine optionRel_map (mult_op_rel s1 s2 hx hy ha) ?_
    intro r1 r2 hr
    exact ⟨by rw [hr.1], hr.2⟩
  | ibeConstOne =>
    obtain ⟨hh, ha'⟩ := ibe_const_one_op_rel s1 s2 ha
    exact ⟨by rw [hh], ha'⟩

lemma evRun_rel (ops : List (EvOp F)) :
    ∀ (s1 s2 : EvaluatorState F), alignedStates s1 s2 →
      optionRel (fun r1 r2 => r1.1 = r2.1 ∧ alignedStates r1.2 r2.2)
        (evRun s1 ops) (evRun s2 ops) := by
  induction ops with
  | nil =>
    intro s1 s2 ha
    exact ⟨rfl, ha⟩
  | cons op ops ih =>
    intro s1 s2 ha
    simp only [evRun]
    refine optionRel_bind (evStep_rel s1 s2 op ha) ?_
    intro r1 r2 hr
    refine optionRel_map (ih r1.2 r2.2 hr.2) ?_
    intro q1 q2 hq
    exact ⟨by rw [hr.1, hq.1], hq.2⟩

end AlignLemmas

section C9

variable {F : Type} [Field F]

/-- **C9.** Two evaluator runs that execute the same sequence of
gate-creating calls (same operations, same arguments and batch lengths)
from freshly preprocessed states return byte-identical handle strings at
every position — even when the two runs have different party ids,
different preprocessed share values and different opened values: each
handle is the base58 encoding of the big-endian bytes of a gate counter
that depends only on the call sequence, and the final gate counters
agree. -/
theorem handles_determined_by_call_sequence
    (s1 s2 : EvaluatorState F) (ops : List (EvOp F))
    (h1g : s1.gate_counter = 0) (h2g : s2.gate_counter = 0)
    (h1w : s1.wire_shares = []) (h2w : s2.wire_shares = [])
    (h1b : s1.beaver_counter = 0) (h2b : s2.beaver_counter = 0)
    (h1r : s1.rand_counter = 0) (h2r : s2.rand_counter = 0)
    (h1o : s1.recon_counter = 0) (h2o : s2.recon_counter = 0)
    (h1bl : s1.beaver_triples.length = NUM_BEAVER_TRIPLES)
    (h2bl : s2.beaver_triples.length = NUM_BEAVER_TRIPLES)
    (h1rl : s1.rand_sharings.length = NUM_RAND_SHARINGS)
    (h2rl : s2.rand_sharings.length = NUM_RAND_SHARINGS)
    (hs1 hs2 : List String) (s1' s2' : EvaluatorState F)
    (hrun1 : evRun s1 ops = some (hs1, s1'))
    (hrun2 : evRun s2 ops = some (hs2, s2')) :
    hs1 = hs2 ∧ s1'.gate_counter = s2'.gate_counter := by
  have ha : alignedStates s1 s2 :=
    ⟨by omega, by rw [h1w, h2w], by omega, by omega, by omega,
      by omega, by omega⟩
  have hrel := evRun_rel ops s1 s2 ha
  rw [hrun1, hrun2] at hrel
  exact ⟨hrel.1, hrel.2.1⟩

/-- Witness for C9: party 1 and party 2, with different preprocessed
values and different reconstruction oracles over `ZMod 101`, run
`[ran, fixedWire 7]` and obtain the same handles
`[wireLabel 1, wireLabel 2]`. -/
theorem handles_determined_by_call_sequence_witness :
    ((0 : ℕ) = 0) ∧
    (([] : List (String × ZMod 101)) = []) ∧
    ((List.replicate NUM_BEAVER_TRIPLES
        ((1 : ZMod 101), (2 : ZMod 101), (3 : ZMod 101))).length =
      NUM_BEAVER_TRIPLES) ∧
    ((List.replicate NUM_RAND_SHARINGS (5 : ZMod 101)).length =
      NUM_RAND_SHARINGS) ∧
    (evRun
      (⟨1, List.replicate NUM_BEAVER_TRIPLES (1, 2, 3),
        List.replicate NUM_RAND_SHARINGS 5, [], 0, 0, 0, fun _ => 7, 0⟩ :
        EvaluatorState (ZMod 101))
      [EvOp.ran, EvOp.fixedWire 7] =
      some ([wireLabel 1, wireLabel 2],
        ⟨1, List.replicate NUM_BEAVER_TRIPLES (1, 2, 3),
          List.replicate NUM_RAND_SHARINGS 5,
          [(wireLabel 2, 7), (wireLabel 1, 5)], 2, 0, 1, fun _ => 7, 0⟩)) ∧
    (evRun
      (⟨2, List.replicate NUM_BEAVER_TRIPLES (4, 5, 6),
        List.replicate NUM_RAND_SHARINGS 9, [], 0, 0, 0, fun _ => 8, 0⟩ :
        EvaluatorState (ZMod 101))
      [EvOp.ran, EvOp.fixedWire 7] =
      some ([wireLabel 1, wireLabel 2],
        ⟨2, List.replicate NUM_BEAVER_TRIPLES (4, 5, 6),
          List.replicate NUM_RAND_SHARINGS 9,
          [(wireLabel 2, 0), (wireLabel 1, 9)], 2, 0, 1, fun _ => 8, 0⟩)) ∧
    ([wireLabel 1, wireLabel 2] = [wireLabel 1, wireLabel 2] ∧
      (⟨1, List.replicate NUM_BEAVER_TRIPLES (1, 2, 3),
        List.replicate NUM_RAND_SHARINGS 5,
        [(wireLabel 2, 7), (wireLabel 1, 5)], 2, 0, 1, fun _ => 7, 0⟩ :
        EvaluatorState (ZMod 101)).gate_counter =
      (⟨2, List.replicate NUM_BEAVER_TRIPLES (4, 5, 6),
        List.replicate NUM_RAND_SHARINGS 9,
        [(wireLabel 2, 0), (wireLabel 1, 9)], 2, 0, 1, fun _ => 8, 0⟩ :
        EvaluatorState (ZMod 101)).gate_counter) :=
  ⟨rfl, rfl, by simp, by simp, rfl, rfl,
    handles_determined_by_call_sequence
      (⟨1, List.replicate NUM_BEAVER_TRIPLES (1, 2, 3),
        List.replicate NUM_RAND_SHARINGS 5, [], 0, 0, 0, fun _ => 7, 0⟩ :
        EvaluatorState (ZMod 101))
      (⟨2, List.replicate NUM_BEAVER_TRIPLES (4, 5, 6),
        List.replicate NUM_RAND_SHARINGS 9, [], 0, 0, 0, fun _ => 8, 0⟩ :
        EvaluatorState (ZMod 101))
      [EvOp.ran, EvOp.fixedWire 7]
      rfl rfl rfl rfl rfl rfl rfl rfl rfl rfl
      (by simp) (by simp) (by simp) (by simp)
      [wireLabel 1, wireLabel 2] [wireLabel 1, wireLabel 2] _ _ rfl rfl⟩

end C9

section Base58Lemmas

lemma b58DigitVal_digitChar : ∀ d < 58, b58DigitVal (b58DigitChar d) = d := by
  decide

lemma b58Decode_digits : ∀ x : ℕ, b58Decode (b58Digits x) = x := by
  intro x
  induction x using Nat.strong_induction_on with
  | _ x ih =>
    by_cases hx : x = 0
    · subst hx
      rw [b58Digits]
      simp [b58Decode]
    · rw [b58Digits, dif_neg hx]
      unfold b58Decode
      rw [List.foldl_append]
      simp only [List.foldl_cons, List.foldl_nil]
      rw [b58DigitVal_digitChar _ (Nat.mod_lt _ (by norm_num))]
      have hrec := ih (x / 58) (Nat.div_lt_self (Nat.pos_of_ne_zero hx)
        (by norm_num))
      unfold b58Decode at hrec
      rw [hrec]
      omega

lemma b58Decode_replicate_one (z : ℕ) (l : List Char) :
    b58Decode (List.replicate z '1' ++ l) = b58Decode l := by
  unfold b58Decode
  rw [List.foldl_append]
  have hz : List.foldl (fun acc c => 58 * acc + b58DigitVal c) 0
      (List.replicate z '1') = 0 := by
    induction z with
    | zero => rfl
    | succ z ihz =>
      rw [List.replicate_succ, List.foldl_cons]
      have h1 : 58 * 0 + b58DigitVal '1' = 0 := by decide
      rw [h1, ihz]
  rw [hz]

lemma b58Decode_bs58Encode (bytes : List ℕ) :
    b58Decode (bs58Encode bytes).data = natOfBEBytes bytes := by
  show b58Decode (List.replicate (countLeadingZeroBytes bytes) '1' ++
    b58Digits (natOfBEBytes bytes)) = natOfBEBytes bytes
  rw [b58Decode_replicate_one, b58Decode_digits]

lemma natOfBEBytes_toBEBytes8 (x : ℕ) :
    natOfBEBytes (toBEBytes8 x) = x % 2 ^ 64 := by
  simp only [natOfBEBytes, toBEBytes8, List.foldl_cons, List.foldl_nil]
  norm_num
  omega

lemma wireLabel_inj {x y : ℕ} (hx : x < 2 ^ 64) (hy : y < 2 ^ 64)
    (h : wireLabel x = wireLabel y) : x = y := by
  have hd := congrArg (fun s : String => b58Decode s.data) h
  simp only [wireLabel] at hd
  rw [b58Decode_bs58Encode, b58Decode_bs58Encode, natOfBEBytes_toBEBytes8,
    natOfBEBytes_toBEBytes8] at hd
  rwa [Nat.mod_eq_of_lt hx, Nat.mod_eq_of_lt hy] at hd

lemma wireLabel_ne {x y : ℕ} (hx : x < 2 ^ 64) (hy : y < 2 ^ 64)
    (hne : x ≠ y) : wireLabel x ≠ wireLabel y :=
  fun h => hne (wireLabel_inj hx hy h)

end Base58Lemmas

section WireLemmas

variable {F : Type} [Field F]

lemma get_wire_mem_keys (s : EvaluatorState F) (h : String) (v : F)
    (hgv : get_wire s h = some v) : h ∈ s.wire_shares.map Prod.fst := by
  unfold get_wire at hgv
  obtain ⟨p, hfind, -⟩ := Option.map_eq_some'.mp hgv
  have hmem := List.mem_of_find?_eq_some hfind
  have hpred := List.find?_some hfind
  simp only [decide_eq_true_eq] at hpred
  exact List.mem_map.mpr ⟨p, hmem, hpred⟩

lemma batch_beaver_loop_wire_shape (base : ℕ) :
    ∀ (rem i : ℕ) (s : EvaluatorState F) (r : List String × EvaluatorState F),
      batch_beaver_loop s base i rem = some r →
      s.gate_counter ≤ r.2.gate_counter ∧
      ∃ news : List (String × F),
        r.2.wire_shares = news ++ s.wire_shares ∧
        ∀ p ∈ news, ∃ j, s.gate_counter < j ∧ j ≤ r.2.gate_counter ∧
          p.1 = wireLabel j := by
  intro rem
  induction rem with
  | zero =>
    intro i s r h
    simp only [batch_beaver_loop, Option.some.injEq] at h
    rw [← h]
    exact ⟨le_rfl, [], rfl, by simp⟩
  | succ rem ih =>
    intro i s r h
    simp only [batch_beaver_loop, fresh_label, insert_wire,
      Option.bind_eq_some, Option.map_eq_some'] at h
    rcases h with ⟨t, ht, r1, hrec, rfl⟩
    obtain ⟨hg, news, hsh, hnews⟩ := ih (i + 1) _ r1 hrec
    have hg' : s.gate_counter + 1 + 1 + 1 ≤ r1.2.gate_counter := hg
    refine ⟨?_,
      news ++ [(wireLabel (s.gate_counter + 1 + 1 + 1), t.2.2),
        (wireLabel (s.gate_counter + 1 + 1), t.2.1),
        (wireLabel (s.gate_counter + 1), t.1)], ?_, ?_⟩
    · show s.gate_counter ≤ r1.2.gate_counter
      omega
    · rw [List.append_assoc]
      exact hsh
    · intro p hp
      rcases List.mem_append.mp hp with hp | hp
      · obtain ⟨j, hj1, hj2, hj3⟩ := hnews p hp
        have hj1' : s.gate_counter + 1 + 1 + 1 < j := hj1
        have hj2' : j ≤ r1.2.gate_counter := hj2
        exact ⟨j, by omega, hj2', hj3⟩
      · simp only [List.mem_cons, List.mem_singleton, List.not_mem_nil,
          or_false] at hp
        rcases hp with rfl | rfl | rfl
        · exact ⟨s.gate_counter + 3, by omega,
            (by omega : s.gate_counter + 3 ≤ r1.2.gate_counter), by norm_num⟩
        · exact ⟨s.gate_counter + 2, by omega,
            (by omega : s.gate_counter + 2 ≤ r1.2.gate_counter), by norm_num⟩
        · exact ⟨s.gate_counter + 1, by omega,
            (by omega : s.gate_counter + 1 ≤ r1.2.gate_counter), rfl⟩

/-- Any evaluator step only prepends freshly labelled entries to the wire
table: the new keys are labels of counter values spent during this step. -/
lemma evStep_wire_shape (s s' : EvaluatorState F) (op : EvOp F)
    (hs : List String) (hstep : evStep s op = some (hs, s')) :
    s.gate_counter ≤ s'.gate_counter ∧
    ∃ news : List (String × F),
      s'.wire_shares = news ++ s.wire_shares ∧
      ∀ p ∈ news, ∃ j, s.gate_counter < j ∧ j ≤ s'.gate_counter ∧
        p.1 = wireLabel j := by
  cases op with
  | ran =>
    simp only [evStep, ran_op, fresh_label, insert_wire,
      Option.map_eq_some', Prod.mk.injEq] at hstep
    rcases hstep with ⟨r, ⟨v, hv, rfl⟩, rfl, rfl⟩
    refine ⟨(by omega : s.gate_counter ≤ s.gate_counter + 1),
      [(wireLabel (s.gate_counter + 1), v)], rfl, ?_⟩
    intro p hp
    simp only [List.mem_singleton] at hp
    subst hp
    exact ⟨s.gate_counter + 1, by omega,
      (by omega : s.gate_counter + 1 ≤ s.gate_counter + 1), rfl⟩
  | fixedWire v =>
    simp only [evStep, fixed_wire_op, fresh_label, insert_wire,
      Option.some.injEq, Prod.mk.injEq] at hstep
    rcases hstep with ⟨rfl, rfl⟩
    refine ⟨(by omega : s.gate_counter ≤ s.gate_counter + 1),
      [(wireLabel (s.gate_counter + 1), if s.myId = 1 then v else 0)],
      rfl, ?_⟩
    intro p hp
    simp only [List.mem_singleton] at hp
    subst hp
    exact ⟨s.gate_counter + 1, by omega,
      (by omega : s.gate_counter + 1 ≤ s.gate_counter + 1), rfl⟩
  | add hx hy =>
    simp only [evStep, add_op, fresh_label, insert_wire,
      Option.map_eq_some', Option.bind_eq_some, Prod.mk.injEq] at hstep
    rcases hstep with ⟨r, ⟨x, hx', y, hy', rfl⟩, rfl, rfl⟩
    refine ⟨(by omega : s.gate_counter ≤ s.gate_counter + 1),
      [(wireLabel (s.gate_counter + 1), x + y)], rfl, ?_⟩
    intro p hp
    simp only [List.mem_singleton] at hp
    subst hp
    exact ⟨s.gate_counter + 1, by omega,
      (by omega : s.gate_counter + 1 ≤ s.gate_counter + 1), rfl⟩
  | sub hx hy =>
    simp only [evStep, sub_op, fresh_label, insert_wire,
      Option.map_eq_some', Option.bind_eq_some, Prod.mk.injEq] at hstep
    rcases hstep with ⟨r, ⟨x, hx', y, hy', rfl⟩, rfl, rfl⟩
    refine ⟨(by omega : s.gate_counter ≤ s.gate_counter + 1),
      [(wireLabel (s.gate_counter + 1), x - y)], rfl, ?_⟩
    intro p hp
    simp only [List.mem_singleton] at hp
    subst hp
    exact ⟨s.gate_counter + 1, by omega,
      (by omega : s.gate_counter + 1 ≤ s.gate_counter + 1), rfl⟩
  | scale hx k =>
    simp only [evStep, scale_op, fresh_label, insert_wire,
      Option.map_eq_some', Prod.mk.injEq] at hstep
    rcases hstep with ⟨r, ⟨x, hx', rfl⟩, rfl, rfl⟩
    refine ⟨(by omega : s.gate_counter ≤ s.gate_counter + 1),
      [(wireLabel (s.gate_counter + 1), x * k)], rfl, ?_⟩
    intro p hp
    simp only [List.mem_singleton] at hp
    subst hp
    exact ⟨s.gate_counter + 1, by omega,
      (by omega : s.gate_counter + 1 ≤ s.gate_counter + 1), rfl⟩
  | clearAdd hx v =>
    simp only [evStep, clear_add_op, fresh_label, insert_wire,
      Option.map_eq_some', Prod.mk.injEq] at hstep
    rcases hstep with ⟨r, ⟨x, hx', rfl⟩, rfl, rfl⟩
    refine ⟨(by omega : s.gate_counter ≤ s.gate_counter + 1),
      [(wireLabel (s.gate_counter + 1), if s.myId = 1 then x + v else x)],
      rfl, ?_⟩
    intro p hp
    simp only [List.mem_singleton] at hp
    subst hp
    exact ⟨s.gate_counter + 1, by omega,
      (by omega : s.gate_counter + 1 ≤ s.gate_counter + 1), rfl⟩
  | outputWire hx =>
    simp only [evStep, output_wire_op, Option.map_eq_some',
      Prod.mk.injEq] at hstep
    rcases hstep with ⟨r, ⟨x, hx', rfl⟩, rfl, rfl⟩
    exact ⟨(le_rfl : s.gate_counter ≤ s.gate_counter), [], rfl, by simp⟩
  | beaver =>
    simp only [evStep, beaver_op, fresh_label, insert_wire,
      Option.map_eq_some', Prod.mk.injEq] at hstep
    rcases hstep with ⟨r, ⟨t, ht, rfl⟩, rfl, rfl⟩
    refine ⟨(by omega : s.gate_counter ≤ s.gate_counter + 1 + 1 + 1),
      [(wireLabel (s.gate_counter + 1 + 1 + 1), t.2.2),
       (wireLabel (s.gate_counter + 1 + 1), t.2.1),
       (wireLabel (s.gate_counter + 1), t.1)], rfl, ?_⟩
    intro p hp
    simp only [List.mem_cons, List.mem_singleton, List.not_mem_nil,
      or_false] at hp
    rcases hp with rfl | rfl | rfl
    · exact ⟨s.gate_counter + 3, by omega,
        (by omega : s.gate_counter + 3 ≤ s.gate_counter + 1 + 1 + 1),
        by norm_num⟩
    · exact ⟨s.gate_counter + 2, by omega,
        (by omega : s.gate_counter + 2 ≤ s.gate_counter + 1 + 1 + 1),
        by norm_num⟩
    · exact ⟨s.gate_counter + 1, by omega,
        (by omega : s.gate_counter + 1 ≤ s.gate_counter + 1 + 1 + 1), rfl⟩
  | batchBeaver num =>
    simp only [evStep, batch_beaver_op, Option.map_eq_some',
      Prod.mk.injEq] at hstep
    rcases hstep with ⟨r, hloop, rfl, rfl⟩
    obtain ⟨hg, news, hsh, hnews⟩ :=
      batch_beaver_loop_wire_shape s.beaver_counter num 0 s r hloop
    refine ⟨(hg : s.gate_counter ≤ r.2.gate_counter), news, hsh, ?_⟩
    intro p hp
    obtain ⟨j, hj1, hj2, hj3⟩ := hnews p hp
    exact ⟨j, hj1, (hj2 : j ≤ r.2.gate_counter), hj3⟩
  | mult hx hy =>
    simp only [evStep, mult_op, beaver_op, add_op, output_wire_op,
      fresh_label, insert_wire, Option.map_eq_some', Option.bind_eq_some,
      Prod.mk.injEq] at hstep
    rcases hstep with ⟨r, ⟨r0, ⟨t, ht, rfl⟩, a, ha, b, hb, c, hc,
      rxa, ⟨x1, hx1, y1, hy1, rfl⟩, ryb, ⟨x2, hx2, y2, hy2, rfl⟩,
      rd, ⟨xd, hxd, rfl⟩, re, ⟨xe, hxe, rfl⟩, rfl⟩, rfl, rfl⟩
    refine ⟨(by omega :
      s.gate_counter ≤ s.gate_counter + 1 + 1 + 1 + 1 + 1 + 1), ?_⟩
    refine ⟨[(wireLabel (s.gate_counter + 1 + 1 + 1 + 1 + 1 + 1),
        multShare s.myId (s.recon s.recon_counter)
          (s.recon (s.recon_counter + 1)) a b c),
      (wireLabel (s.gate_counter + 1 + 1 + 1 + 1 + 1), x2 + y2),
      (wireLabel (s.gate_counter + 1 + 1 + 1 + 1), x1 + y1),
      (wireLabel (s.gate_counter + 1 + 1 + 1), t.2.2),
      (wireLabel (s.gate_counter + 1 + 1), t.2.1),
      (wireLabel (s.gate_counter + 1), t.1)], rfl, ?_⟩
    intro p hp
    simp only [List.mem_cons, List.mem_singleton, List.not_mem_nil,
      or_false] at hp
    rcases hp with rfl | rfl | rfl | rfl | rfl | rfl
    · exact ⟨s.gate_counter + 6, by omega,
        (by omega :
          s.gate_counter + 6 ≤ s.gate_counter + 1 + 1 + 1 + 1 + 1 + 1),
        by norm_num⟩
    · exact ⟨s.gate_counter + 5, by omega,
        (by omega :
          s.gate_counter + 5 ≤ s.gate_counter + 1 + 1 + 1 + 1 + 1 + 1),
        by norm_num⟩
    · exact ⟨s.gate_counter + 4, by omega,
        (by omega :
          s.gate_counter + 4 ≤ s.gate_counter + 1 + 1 + 1 + 1 + 1 + 1),
        by norm_num⟩
    · exact ⟨s.gate_counter + 3, by omega,
        (by omega :
          s.gate_counter + 3 ≤ s.gate_counter + 1 + 1 + 1 + 1 + 1 + 1),
        by norm_num⟩
    · exact ⟨s.gate_counter + 2, by omega,
        (by omega :
          s.gate_counter + 2 ≤ s.gate_counter + 1 + 1 + 1 + 1 + 1 + 1),
        by norm_num⟩
    · exact ⟨s.gate_counter + 1, by omega,
        (by omega :
          s.gate_counter + 1 ≤ s.gate_counter + 1 + 1 + 1 + 1 + 1 + 1), rfl⟩
  | ibeConstOne =>
    simp only [evStep, ibe_const_one_op, fresh_label, insert_wire,
      Option.some.injEq, Prod.mk.injEq] at hstep
    rcases hstep with ⟨rfl, rfl⟩
    refine ⟨(by omega : s.gate_counter ≤ s.gate_counter + 1),
      [(wireLabel (s.gate_counter + 1), 1)], rfl, ?_⟩
    intro p hp
    simp only [List.mem_singleton] at hp
    subst hp
    exact ⟨s.gate_counter + 1, by omega,
      (by omega : s.gate_counter + 1 ≤ s.gate_counter + 1), rfl⟩

lemma get_wire_shape_preserved (s s' : EvaluatorState F)
    (news : List (String × F))
    (hsh : s'.wire_shares = news ++ s.wire_shares)
    (hnews : ∀ p ∈ news, ∃ j, s.gate_counter < j ∧ j ≤ s'.gate_counter ∧
      p.1 = wireLabel j)
    (hwf : wfKeys s) (hbound : s'.gate_counter < 2 ^ 64)
    (hmono : s.gate_counter ≤ s'.gate_counter) :
    wfKeys s' ∧ ∀ h v, get_wire s h = some v → get_wire s' h = some v := by
  constructor
  · intro k hk
    rw [hsh, List.map_append] at hk
    rcases List.mem_append.mp hk with hk | hk
    · obtain ⟨p, hp, rfl⟩ := List.mem_map.mp hk
      obtain ⟨j, hj1, hj2, hj3⟩ := hnews p hp
      exact ⟨j, by omega, hj2, hj3⟩
    · obtain ⟨j, hj1, hj2, hj3⟩ := hwf k hk
      exact ⟨j, hj1, by omega, hj3⟩
  · intro h v hgv
    have hkey := get_wire_mem_keys s h v hgv
    obtain ⟨j0, hj01, hj0g, rfl⟩ := hwf h hkey
    unfold get_wire
    rw [hsh, List.find?_append]
    have hnone : news.find? (fun p => p.1 = wireLabel j0) = none := by
      rw [List.find?_eq_none]
      intro p hp
      obtain ⟨j, hj1, hj2, hj3⟩ := hnews p hp
      simp only [hj3, decide_eq_true_eq]
      exact wireLabel_ne (by omega) (by omega) (by omega)
    rw [hnone, Option.none_or]
    exact hgv

lemma evRun_gate_mono (ops : List (EvOp F)) :
    ∀ (s : EvaluatorState F) (r : List String × EvaluatorState F),
      evRun s ops = some r → s.gate_counter ≤ r.2.gate_counter := by
  induction ops with
  | nil =>
    intro s r h
    simp only [evRun, Option.some.injEq] at h
    rw [← h]
  | cons op ops ih =>
    intro s r h
    simp only [evRun, Option.bind_eq_some, Option.map_eq_some',
      Prod.mk.injEq] at h
    rcases h with ⟨r1, hstep, r2, hrun, -, rfl⟩
    have h1 := (evStep_wire_shape s r1.2 op r1.1
      (by rw [Prod.mk.eta]; exact hstep)).1
    have h2 := ih r1.2 r2 hrun
    show s.gate_counter ≤ r2.2.gate_counter
    omega

lemma evRun_wire_permanence (ops : List (EvOp F)) :
    ∀ (s s' : EvaluatorState F) (hs : List String),
      evRun s ops = some (hs, s') → wfKeys s →
      s'.gate_counter < 2 ^ 64 →
      wfKeys s' ∧ ∀ h v, get_wire s h = some v → get_wire s' h = some v := by
  induction ops with
  | nil =>
    intro s s' hs h hwf hbound
    simp only [evRun, Option.some.injEq, Prod.mk.injEq] at h
    rcases h with ⟨-, rfl⟩
    exact ⟨hwf, fun h v hv => hv⟩
  | cons op ops ih =>
    intro s s' hs h hwf hbound
    simp only [evRun, Option.bind_eq_some, Option.map_eq_some',
      Prod.mk.injEq] at h
    rcases h with ⟨r1, hstep, r2, hrun, -, rfl⟩
    obtain ⟨hmono1, news, hsh, hnews⟩ := evStep_wire_shape s r1.2 op r1.1
      (by rw [Prod.mk.eta]; exact hstep)
    have hmono2 := evRun_gate_mono ops r1.2 r2 hrun
    have hb1 : r1.2.gate_counter < 2 ^ 64 := by omega
    obtain ⟨hwf1, hpres1⟩ :=
      get_wire_shape_preserved s r1.2 news hsh hnews hwf hb1 hmono1
    obtain ⟨hwf2, hpres2⟩ := ih r1.2 r2.2 r2.1
      (by rw [Prod.mk.eta]; exact hrun) hwf1 hbound
    exact ⟨hwf2, fun h v hv => hpres2 h v (hpres1 h v hv)⟩

end WireLemmas

section C10

variable {F : Type} [Field F]

/-- **C10.** The wire table is insert-only: starting from a well-formed
state (every key was minted by the allocator), as long as the gate counter
does not wrap around `2^64`, every insertion by any evaluator operation
uses a freshly allocated label distinct from all existing handles, so for
every handle `h` already in the table the share returned by
`get_wire(h)` is the same after any sequence of later operations as it
was when `h` was created — including the constant-1 wire created by
`batch_dist_ibe_encrypt_with_common_mask` (the `ibeConstOne` operation in
the model). -/
theorem wire_table_insert_only
    (s0 s' : EvaluatorState F) (ops : List (EvOp F)) (hs : List String)
    (hwf : wfKeys s0)
    (hrun : evRun s0 ops = some (hs, s'))
    (hnowrap : s'.gate_counter < 2 ^ 64)
    (h : String) (v : F) (hv : get_wire s0 h = some v) :
    (s'.gate_counter + 1 < 2 ^ 64 →
      wireLabel (s'.gate_counter + 1) ∉ s'.wire_shares.map Prod.fst) ∧
    get_wire s' h = some v := by
  obtain ⟨hwf', hpres⟩ := evRun_wire_permanence ops s0 s' hs hrun hwf hnowrap
  constructor
  · intro hb1 hmem
    obtain ⟨j, hj1, hj2, hj3⟩ := hwf' _ hmem
    exact absurd (wireLabel_inj (by omega) (by omega) hj3.symm) (by omega)
  · exact hpres h v hv

/-- Witness for C10: a state holding the wire `(wireLabel 1, 42)` runs
`fixed_wire_handle 7`; the next label is fresh and the old wire still
reads 42. -/
theorem wire_table_insert_only_witness :
    (evRun
      (⟨1, [], [], [(wireLabel 1, (42 : ZMod 101))], 1, 0, 0,
        fun _ => 0, 0⟩ : EvaluatorState (ZMod 101))
      [EvOp.fixedWire 7] =
      some ([wireLabel 2],
        ⟨1, [], [], [(wireLabel 2, 7), (wireLabel 1, 42)], 2, 0, 0,
          fun _ => 0, 0⟩)) ∧
    ((⟨1, [], [], [(wireLabel 2, 7), (wireLabel 1, 42)], 2, 0, 0,
        fun _ => 0, 0⟩ :
      EvaluatorState (ZMod 101)).gate_counter < 2 ^ 64) ∧
    (get_wire
      (⟨1, [], [], [(wireLabel 1, (42 : ZMod 101))], 1, 0, 0,
        fun _ => 0, 0⟩ : EvaluatorState (ZMod 101)) (wireLabel 1) =
      some 42) ∧
    (((⟨1, [], [], [(wireLabel 2, 7), (wireLabel 1, 42)], 2, 0, 0,
          fun _ => 0, 0⟩ :
        EvaluatorState (ZMod 101)).gate_counter + 1 < 2 ^ 64 →
      wireLabel
        ((⟨1, [], [], [(wireLabel 2, 7), (wireLabel 1, 42)], 2, 0, 0,
          fun _ => 0, 0⟩ :
          EvaluatorState (ZMod 101)).gate_counter + 1) ∉
        (⟨1, [], [], [(wireLabel 2, (7 : ZMod 101)), (wireLabel 1, 42)],
          2, 0, 0, fun _ => 0, 0⟩ :
          EvaluatorState (ZMod 101)).wire_shares.map Prod.fst) ∧
    get_wire
      (⟨1, [], [], [(wireLabel 2, 7), (wireLabel 1, 42)], 2, 0, 0,
        fun _ => 0, 0⟩ : EvaluatorState (ZMod 101)) (wireLabel 1) =
      some 42) :=
  ⟨rfl, by norm_num, by simp [get_wire],
    wire_table_insert_only
      (⟨1, [], [], [(wireLabel 1, (42 : ZMod 101))], 1, 0, 0,
        fun _ => 0, 0⟩ : EvaluatorState (ZMod 101))
      (⟨1, [], [], [(wireLabel 2, 7), (wireLabel 1, 42)], 2, 0, 0,
        fun _ => 0, 0⟩)
      [EvOp.fixedWire 7] [wireLabel 2]
      (by intro k hk
          simp only [List.map_cons, List.map_nil, List.mem_singleton] at hk
          subst hk
          exact ⟨1, le_rfl, le_rfl, rfl⟩)
      rfl (by norm_num) (wireLabel 1) 42 (by simp [get_wire])⟩

end C10

section PolyLemmas

variable {F : Type} [Field F]

lemma share_poly_eval_foldl (x : F) :
    ∀ (l : List F) (s p : F),
      (l.foldl (fun q coeff => (q.1 + coeff * q.2, q.2 * x)) (s, p)).1 =
        s + ∑ k in Finset.range l.length, l.getD k 0 * (p * x ^ k) := by
  intro l
  induction l with
  | nil => intro s p; simp
  | cons c t ih =>
    intro s p
    simp only [List.foldl_cons, List.length_cons]
    rw [ih (s + c * p) (p * x)]
    rw [Finset.sum_range_succ']
    simp only [List.getD_cons_succ, List.getD_cons_zero, pow_zero]
    have hterm : ∀ k, t.getD k 0 * (p * x * x ^ k) =
        t.getD k 0 * (p * x ^ (k + 1)) := by
      intro k
      ring
    rw [Finset.sum_congr rfl (fun k _ => hterm k)]
    ring

lemma share_poly_eval_spec (l : List F) (x : F) :
    share_poly_eval l x =
      ∑ k in Finset.range l.length, l.getD k 0 * x ^ k := by
  unfold share_poly_eval
  rw [share_poly_eval_foldl]
  simp

lemma share_poly_eval_pad (l : List F) (x : F) (D : ℕ) (hD : l.length ≤ D) :
    share_poly_eval l x = ∑ k in Finset.range D, l.getD k 0 * x ^ k := by
  rw [share_poly_eval_spec]
  apply Finset.sum_subset (Finset.range_subset.mpr hD)
  intro k _ hk
  rw [List.getD_eq_default]
  · ring
  · simp only [Finset.mem_range, not_lt] at hk
    exact hk

lemma geom_sum_root (x : F) (N : ℕ) (hx : x ≠ 1) (hxN : x ^ N = 1) :
    ∑ i in Finset.range N, x ^ i = 0 := by
  rw [geom_sum_eq hx N, hxN]
  simp

lemma dft_orthogonality (ω : F) (N : ℕ) (hω : ω ^ N = 1)
    (hprim : ∀ k, 0 < k → k < N → ω ^ k ≠ 1) (m j : ℕ) (hm : m < N)
    (hj : j < N) :
    (∑ i in Finset.range N, ω ^ (i * m) * (ω ^ (i * j))⁻¹) =
      if m = j then (N : F) else 0 := by
  have hN0 : 0 < N := by omega
  have hωne : ω ≠ 0 := by
    intro h0
    rw [h0, zero_pow (by omega)] at hω
    exact zero_ne_one hω
  have hpowne : ∀ k : ℕ, ω ^ k ≠ 0 := fun k => pow_ne_zero k hωne
  by_cases hmj : m = j
  · subst hmj
    rw [if_pos rfl]
    have hone : ∀ i ∈ Finset.range N,
        ω ^ (i * m) * (ω ^ (i * m))⁻¹ = 1 := by
      intro i _
      exact mul_inv_cancel₀ (hpowne _)
    rw [Finset.sum_congr rfl hone]
    simp
  · rw [if_neg hmj]
    have hterm : ∀ i, ω ^ (i * m) * (ω ^ (i * j))⁻¹ =
        (ω ^ m * (ω ^ j)⁻¹) ^ i := by
      intro i
      rw [Nat.mul_comm i m, Nat.mul_comm i j, pow_mul, pow_mul, mul_pow,
        inv_pow]
    rw [Finset.sum_congr rfl (fun i _ => hterm i)]
    apply geom_sum_root
    · intro hx1
      have heq : ω ^ m = ω ^ j :=
        (mul_inv_eq_one₀ (hpowne j)).mp hx1
      rcases Nat.lt_trichotomy m j with hlt | heqmj | hgt
      · have hsplit : ω ^ j = ω ^ m * ω ^ (j - m) := by
          rw [← pow_add]
          congr 1
          omega
        have hcanc : ω ^ m * ω ^ (j - m) = ω ^ m * 1 := by
          rw [mul_one, ← hsplit, heq]
        exact hprim (j - m) (by omega) (by omega)
          (mul_left_cancel₀ (hpowne m) hcanc)
      · exact hmj heqmj
      · have hsplit : ω ^ m = ω ^ j * ω ^ (m - j) := by
          rw [← pow_add]
          congr 1
          omega
        have hcanc : ω ^ j * ω ^ (m - j) = ω ^ j * 1 := by
          rw [mul_one, ← hsplit, heq]
        exact hprim (m - j) (by omega) (by omega)
          (mul_left_cancel₀ (hpowne j) hcanc)
    · rw [mul_pow, inv_pow, ← pow_mul, ← pow_mul, Nat.mul_comm m N,
        Nat.mul_comm j N, pow_mul, pow_mul, hω, one_pow, one_pow]
      simp

/-- Inverse-DFT inversion: interpolating the evaluations of a
degree-`< N` coefficient family over the order-`N` subgroup generated by
`ω` recovers the coefficients. -/
lemma dft_inversion (ω : F) (N : ℕ) (hω : ω ^ N = 1)
    (hprim : ∀ k, 0 < k → k < N → ω ^ k ≠ 1) (hN : (N : F) ≠ 0)
    (c : ℕ → F) (j : ℕ) (hj : j < N) :
    (N : F)⁻¹ * ∑ i in Finset.range N,
        (∑ m in Finset.range N, c m * ω ^ (i * m)) * (ω ^ (i * j))⁻¹ =
      c j := by
  have h1 : (∑ i in Finset.range N,
      (∑ m in Finset.range N, c m * ω ^ (i * m)) * (ω ^ (i * j))⁻¹) =
      ∑ m in Finset.range N, c m *
        ∑ i in Finset.range N, ω ^ (i * m) * (ω ^ (i * j))⁻¹ := by
    have e1 : ∀ i ∈ Finset.range N,
        (∑ m in Finset.range N, c m * ω ^ (i * m)) * (ω ^ (i * j))⁻¹ =
        ∑ m in Finset.range N, c m * (ω ^ (i * m) * (ω ^ (i * j))⁻¹) := by
      intro i _
      rw [Finset.sum_mul]
      exact Finset.sum_congr rfl (fun m _ => by ring)
    rw [Finset.sum_congr rfl e1, Finset.sum_comm]
    exact Finset.sum_congr rfl (fun m _ => (Finset.mul_sum _ _ _).symm)
  rw [h1]
  have h2 : ∀ m ∈ Finset.range N,
      c m * (∑ i in Finset.range N, ω ^ (i * m) * (ω ^ (i * j))⁻¹) =
      (if m = j then c m * (N : F) else 0) := by
    intro m hm
    rw [dft_orthogonality ω N hω hprim m j (Finset.mem_range.mp hm) hj]
    by_cases h : m = j <;> simp [h]
  rw [Finset.sum_congr rfl h2]
  rw [Finset.sum_ite_eq' (Finset.range N) j (fun m => c m * (N : F))]
  rw [if_pos (Finset.mem_range.mpr hj)]
  rw [mul_comm (c j) ((N : F)), ← mul_assoc, inv_mul_cancel₀ hN, one_mul]

end PolyLemmas

section C5

variable {F : Type} [Field F]

/-- **C5.** For share polynomials `f̂`, `ĝ` of degree `< PERM_SIZE` whose
coefficient-wise sums across the `n ≥ 2` parties are `f` and `g`, if every
`batch_mult` position consumes a correct Beaver triple (so, with truthful
reconstruction, it opens to the true product of the summed evaluations),
and `ω` generates the multiplicative subgroup of order `2·PERM_SIZE`
(`ω^(2·PERM_SIZE) = 1` and no smaller positive power is 1, as checked by
the repository's own `test_multiplicative_subgroup_of_size`), then every
coefficient `j < 2·PERM_SIZE` of the locally interpolated outputs of
`share_poly_mult` sums across parties to the `j`-th coefficient of
`f·g`. -/
theorem share_poly_mult_open_correct
    (n : ℕ) (hn : 2 ≤ n) (ω : F)
    (hω : ω ^ (2 * PERM_SIZE) = 1)
    (hprim : ∀ k, 0 < k → k < 2 * PERM_SIZE → ω ^ k ≠ 1)
    (hNF : ((2 * PERM_SIZE : ℕ) : F) ≠ 0)
    (fShare gShare : ℕ → List F)
    (hflen : ∀ id, (fShare id).length ≤ PERM_SIZE)
    (hglen : ∀ id, (gShare id).length ≤ PERM_SIZE)
    (as bs cs : ℕ → ℕ → F)
    (hcs : ∀ i < 2 * PERM_SIZE,
      openShares n (fun p => cs p i) =
        openShares n (fun p => as p i) * openShares n (fun p => bs p i))
    (j : ℕ) (hj : j < 2 * PERM_SIZE) :
    (∑ id in Finset.Icc 1 n,
      (share_poly_mult_shares n ω fShare gShare as bs cs id).getD j 0) =
    ((∑ k in Finset.range PERM_SIZE,
        Polynomial.C (∑ id in Finset.Icc 1 n, (fShare id).getD k 0) *
          Polynomial.X ^ k) *
      (∑ k in Finset.range PERM_SIZE,
        Polynomial.C (∑ id in Finset.Icc 1 n, (gShare id).getD k 0) *
          Polynomial.X ^ k)).coeff j := by
  have hn1 : 1 ≤ n := by omega
  set N := 2 * PERM_SIZE with hNdef
  set fp : Polynomial F := ∑ k in Finset.range PERM_SIZE,
    Polynomial.C (∑ id in Finset.Icc 1 n, (fShare id).getD k 0) *
      Polynomial.X ^ k with hfp
  set gp : Polynomial F := ∑ k in Finset.range PERM_SIZE,
    Polynomial.C (∑ id in Finset.Icc 1 n, (gShare id).getD k 0) *
      Polynomial.X ^ k with hgp
  -- the party-level batch_mult output shares
  set hSh : ℕ → ℕ → F := fun id i =>
    batchMultOutShare n
      (fun p i => share_poly_eval (fShare p) (compute_power ω i))
      (fun p i => share_poly_eval (gShare p) (compute_power ω i))
      as bs cs id i with hhSh
  -- Step A: each party's j-th output coefficient
  have hcoeff : ∀ id,
      (share_poly_mult_shares n ω fShare gShare as bs cs id).getD j 0 =
        (N : F)⁻¹ * ∑ i in Finset.range N, hSh id i * (ω ^ (i * j))⁻¹ := by
    intro id
    unfold share_poly_mult_shares interpolate_poly_over_mult_subgroup
    have hlen : ((List.range N).map (fun i => hSh id i)).length = N := by
      simp
    rw [hlen]
    rw [getD_map_range _ N j hj]
    refine congrArg (fun z => ((N : F))⁻¹ * z) ?_
    refine Finset.sum_congr rfl (fun i hi => ?_)
    rw [getD_map_range _ (2 * PERM_SIZE) i (Finset.mem_range.mp hi)]
  -- Step B: sum over the parties, exchange sums
  have hsum : (∑ id in Finset.Icc 1 n,
      (share_poly_mult_shares n ω fShare gShare as bs cs id).getD j 0) =
      (N : F)⁻¹ * ∑ i in Finset.range N,
        (∑ id in Finset.Icc 1 n, hSh id i) * (ω ^ (i * j))⁻¹ := by
    rw [Finset.sum_congr rfl (fun id _ => hcoeff id)]
    rw [← Finset.mul_sum]
    congr 1
    rw [Finset.sum_comm]
    refine Finset.sum_congr rfl (fun i _ => ?_)
    rw [Finset.sum_mul]
  rw [hsum]
  -- Step C+D+E: the opened evaluation at point i is (fp·gp).eval (ω^i)
  have hopen : ∀ i, i < N →
      (∑ id in Finset.Icc 1 n, hSh id i) = (fp * gp).eval (ω ^ i) := by
    intro i hiN
    have := open_batchMultOutShare n hn1
      (fun p i => share_poly_eval (fShare p) (compute_power ω i))
      (fun p i => share_poly_eval (gShare p) (compute_power ω i))
      as bs cs i (hcs i hiN)
    unfold openShares at this
    rw [hhSh]
    rw [this]
    have heval : ∀ (sh : ℕ → List F), (∀ id, (sh id).length ≤ PERM_SIZE) →
        (∑ p in Finset.Icc 1 n, share_poly_eval (sh p) (compute_power ω i)) =
        Polynomial.eval (ω ^ i)
          (∑ k in Finset.range PERM_SIZE,
            Polynomial.C (∑ id in Finset.Icc 1 n, (sh id).getD k 0) *
              Polynomial.X ^ k) := by
      intro sh hshlen
      rw [Polynomial.eval_finset_sum]
      simp only [Polynomial.eval_mul, Polynomial.eval_C, Polynomial.eval_pow,
        Polynomial.eval_X]
      rw [Finset.sum_congr rfl
        (fun p _ => share_poly_eval_pad (sh p) (compute_power ω i)
          PERM_SIZE (hshlen p))]
      rw [Finset.sum_comm]
      refine Finset.sum_congr rfl (fun k _ => ?_)
      rw [Finset.sum_mul]
      rfl
    rw [heval fShare hflen, heval gShare hglen, ← Polynomial.eval_mul]
  rw [Finset.sum_congr rfl
    (fun i hi => by rw [hopen i (Finset.mem_range.mp hi)])]
  -- Step F: expand the evaluation as a coefficient sum over range N
  have hdegf : fp.natDegree ≤ PERM_SIZE - 1 := by
    rw [hfp]
    refine Polynomial.natDegree_sum_le_of_forall_le _ _ (fun k hk => ?_)
    refine le_trans (Polynomial.natDegree_C_mul_X_pow_le _ _) ?_
    have := Finset.mem_range.mp hk
    omega
  have hdegg : gp.natDegree ≤ PERM_SIZE - 1 := by
    rw [hgp]
    refine Polynomial.natDegree_sum_le_of_forall_le _ _ (fun k hk => ?_)
    refine le_trans (Polynomial.natDegree_C_mul_X_pow_le _ _) ?_
    have := Finset.mem_range.mp hk
    omega
  have hdeg : (fp * gp).natDegree < N := by
    have := Polynomial.natDegree_mul_le (p := fp) (q := gp)
    have hP : (0 : ℕ) < PERM_SIZE := by norm_num [PERM_SIZE]
    omega
  have hexp : ∀ i, (fp * gp).eval (ω ^ i) =
      ∑ m in Finset.range N, (fp * gp).coeff m * ω ^ (i * m) := by
    intro i
    rw [Polynomial.eval_eq_sum_range' hdeg]
    refine Finset.sum_congr rfl (fun m _ => ?_)
    rw [← pow_mul]
  rw [Finset.sum_congr rfl (fun i _ => by rw [hexp i])]
  -- Step G: inverse DFT recovers the coefficient
  exact dft_inversion ω N hω hprim hNF ((fp * gp).coeff) j hj

/-- Witness for C5: `n = 2` parties over `ZMod 257`, where `ω = 9` has
exact multiplicative order `128 = 2·PERM_SIZE`; constant share
polynomials `[1]` and `[2]`, all-zero Beaver triples. -/
theorem share_poly_mult_open_correct_witness :
    ((2 : ℕ) ≤ 2) ∧
    ((9 : ZMod 257) ^ (2 * PERM_SIZE) = 1) ∧
    (∀ k, 0 < k → k < 2 * PERM_SIZE → (9 : ZMod 257) ^ k ≠ 1) ∧
    (((2 * PERM_SIZE : ℕ) : ZMod 257) ≠ 0) ∧
    (∀ id : ℕ, ((fun (_ : ℕ) => [(1 : ZMod 257)]) id).length ≤ PERM_SIZE) ∧
    (∀ id : ℕ, ((fun (_ : ℕ) => [(2 : ZMod 257)]) id).length ≤ PERM_SIZE) ∧
    (∀ i < 2 * PERM_SIZE,
      openShares 2 (fun p => (fun (_ _ : ℕ) => (0 : ZMod 257)) p i) =
        openShares 2 (fun p => (fun (_ _ : ℕ) => (0 : ZMod 257)) p i) *
          openShares 2 (fun p => (fun (_ _ : ℕ) => (0 : ZMod 257)) p i)) ∧
    ((0 : ℕ) < 2 * PERM_SIZE) ∧
    ((∑ id in Finset.Icc 1 2,
      (share_poly_mult_shares 2 (9 : ZMod 257)
        (fun _ => [(1 : ZMod 257)]) (fun _ => [(2 : ZMod 257)])
        (fun _ _ => 0) (fun _ _ => 0) (fun _ _ => 0) id).getD 0 0) =
    ((∑ k in Finset.range PERM_SIZE,
        Polynomial.C (∑ id in Finset.Icc 1 2,
          ((fun (_ : ℕ) => [(1 : ZMod 257)]) id).getD k 0) *
          Polynomial.X ^ k) *
      (∑ k in Finset.range PERM_SIZE,
        Polynomial.C (∑ id in Finset.Icc 1 2,
          ((fun (_ : ℕ) => [(2 : ZMod 257)]) id).getD k 0) *
          Polynomial.X ^ k)).coeff 0) := by
  have hprim : ∀ k, 0 < k → k < 2 * PERM_SIZE → (9 : ZMod 257) ^ k ≠ 1 := by
    have H : ∀ k < 2 * PERM_SIZE, 0 < k → (9 : ZMod 257) ^ k ≠ 1 := by
      decide
    exact fun k hk0 hklt => H k hklt hk0
  refine ⟨by norm_num, by decide, hprim, by decide,
    by intro id; norm_num [PERM_SIZE],
    by intro id; norm_num [PERM_SIZE],
    by intro i _; simp [openShares],
    by norm_num [PERM_SIZE], ?_⟩
  exact share_poly_mult_open_correct 2 (by norm_num) (9 : ZMod 257)
    (by decide) hprim (by decide)
    (fun _ => [(1 : ZMod 257)]) (fun _ => [(2 : ZMod 257)])
    (by intro id; norm_num [PERM_SIZE]) (by intro id; norm_num [PERM_SIZE])
    (fun _ _ => 0) (fun _ _ => 0) (fun _ _ => 0)
    (by intro i _; simp [openShares]) 0 (by norm_num [PERM_SIZE])

end C5

end Pok3r
